import Mathlib

/-!
Verification of the pe PEG parsing-machine core (the Cython machine modules:
the instruction compiler, the scanners, and the backtracking VM).

Strings are modelled as lists of Unicode characters, positions as signed
integers (the sources use C ints), and Python exceptions as an error type
threaded through Except.  Bounded recursion (Python's recursion limit) is
modelled with an explicit Nat counter where the source recurses on
dynamically sized data.
-/

namespace PE

/-- The pe failure sentinel (DEF FAILURE = -1). -/
def FAILURE : Int := -1

/-- Python exceptions that the modelled code can raise. -/
inductive PyErr
  | indexError
  | keyError (k : String)
  | error (msg : String)
deriving DecidableEq, Repr

/-- Normalize a Python index: negative indices count from the end. -/
def pyIdx (n : Nat) (i : Int) : Int :=
  if i < 0 then i + n else i

/-- Python single-item indexing on a string: s[i] with wraparound, raising
IndexError when out of range. -/
def pyGetChar (s : List Char) (i : Int) : Except PyErr Char :=
  if h : 0 ≤ pyIdx s.length i ∧ pyIdx s.length i < (s.length : Int) then
    .ok (s.get ⟨(pyIdx s.length i).toNat, by omega⟩)
  else
    .error .indexError

/-- Normalize one bound of a Python slice: negative bounds count from the
end, and the result is clamped into the interval from 0 to the length. -/
def pySliceIdx (n : Nat) (i : Int) : Nat :=
  if i < 0 then (i + n).toNat else min i.toNat n

/-- Python slicing s[i:j] (never raises). -/
def pySlice (s : List Char) (i j : Int) : List Char :=
  (s.take (pySliceIdx s.length j)).drop (pySliceIdx s.length i)

/-- Python slice assignment l[i:] = repl (never raises). -/
def pySetSlice {α : Type} (l : List α) (i : Int) (repl : List α) : List α :=
  l.take (pySliceIdx l.length i) ++ repl

/-- Python slice read l[i:]. -/
def pyDropSlice {α : Type} (l : List α) (i : Int) : List α :=
  l.drop (pySliceIdx l.length i)

/-- Values carried in the args and kwargs accumulators.  Captures emit
matched substrings; Python None is the empty sentinel of the spec. -/
inductive Value
  | str (s : List Char)
  | pyNone
deriving DecidableEq, Repr

/-- A rule action: an opaque callable
action(s, mark, pos, args, kwargs) returning (new args, new kwargs).
It may raise (UserError propagation). -/
structure ActionFn where
  run : List Char → Int → Int → List Value →
        List (String × Value) → Except PyErr (List Value × List (String × Value))

/-- Python dict insertion on an association list: an existing key keeps its
position and gets the new value, a new key is appended. -/
def pyDictInsert (d : List (String × Value)) (k : String) (v : Value) :
    List (String × Value) :=
  if d.any (fun p => p.1 = k) then d.map (fun p => if p.1 = k then (k, v) else p)
  else d ++ [(k, v)]

/-- Python dict(pairs): last write wins, first-insertion key order. -/
def pyDict (l : List (String × Value)) : List (String × Value) :=
  l.foldl (fun d p => pyDictInsert d p.1 p.2) []

/-! ## Scanners (pe._cy_machine / pe.scanners / pe.machine) -/

/-- State of a CharacterClass scanner.  chars holds the discrete characters,
ranges the lo-hi pairs (the flat _ranges string of the Cython source read two
characters at a time). -/
structure CharacterClass where
  chars : List Char
  ranges : List (Char × Char)
  negate : Bool
  mincount : Int
  maxcount : Int
deriving DecidableEq, Repr

/-- CharacterClass.__init__ of _cy_machine.pyx: the spec is a list of pairs
whose second member is absent for a discrete character and present for the
high end of a range. -/
def mkCharacterClass (spec : List (Char × Option Char)) (negate : Bool)
    (mincount maxcount : Int) : CharacterClass :=
  { chars := spec.filterMap (fun p => if p.2.isNone then some p.1 else none)
    ranges := spec.filterMap (fun p => p.2.map (fun b => (p.1, b)))
    negate := negate
    mincount := mincount
    maxcount := maxcount }

/-- The inner range loop of CharacterClass._scan in _cy_machine.pyx and
scanners.pyx: scan the remaining suffix of the range list (the persistent
index i) for a range containing c; on a hit, break leaving i at the hit. -/
def searchRanges (c : Char) : List (Char × Char) → Bool × List (Char × Char)
  | [] => (false, [])
  | (a, b) :: rest =>
    if a ≤ c ∧ c ≤ b then (true, (a, b) :: rest) else searchRanges c rest

/-- The while loop of CharacterClass._scan in _cy_machine.pyx/scanners.pyx.
The range index i persists across loop iterations in the source; it is
carried here as the remaining suffix rsuf of the range list.  The Nat
argument is the loop counter (slen - pos).toNat: when it is zero the loop
condition pos < slen is false anyway, so the two exits agree. -/
def classScanCyLoop (cc : CharacterClass) (s : List Char) (slen : Int) :
    Nat → List (Char × Char) → Int → Int → Int → Except PyErr Int
  | 0, _, mincount, _, pos =>
    .ok (if mincount > 0 then FAILURE else pos)
  | Nat.succ k, rsuf, mincount, maxcount, pos =>
    if maxcount ≠ 0 ∧ pos < slen then
      match pyGetChar s pos with
      | .error e => .error e
      | .ok c =>
        let mr := if cc.chars.contains c then (true, rsuf) else searchRanges c rsuf
        if xor mr.1 cc.negate then
          classScanCyLoop cc s slen k mr.2 (mincount - 1) (maxcount - 1) (pos + 1)
        else
          .ok (if mincount > 0 then FAILURE else pos)
    else
      .ok (if mincount > 0 then FAILURE else pos)

/-- CharacterClass._scan of _cy_machine.pyx and scanners.pyx. -/
def classScanCy (cc : CharacterClass) (s : List Char) (pos slen : Int) :
    Except PyErr Int :=
  classScanCyLoop cc s slen (slen - pos).toNat cc.ranges cc.mincount cc.maxcount pos

/-- The while loop of CharacterClass._scan in machine.pyx: here every
character is tested with a fresh for loop over the whole range list. -/
def classScanPyLoop (cc : CharacterClass) (s : List Char) (slen : Int) :
    Nat → Int → Int → Int → Except PyErr Int
  | 0, mincount, _, pos =>
    .ok (if mincount > 0 then FAILURE else pos)
  | Nat.succ k, mincount, maxcount, pos =>
    if maxcount ≠ 0 ∧ pos < slen then
      match pyGetChar s pos with
      | .error e => .error e
      | .ok c =>
        let matched := cc.chars.contains c ||
          cc.ranges.any (fun p => decide (p.1 ≤ c) && decide (c ≤ p.2))
        if xor matched cc.negate then
          classScanPyLoop cc s slen k (mincount - 1) (maxcount - 1) (pos + 1)
        else
          .ok (if mincount > 0 then FAILURE else pos)
    else
      .ok (if mincount > 0 then FAILURE else pos)

/-- CharacterClass._scan of machine.pyx. -/
def classScanPy (cc : CharacterClass) (s : List Char) (pos slen : Int) :
    Except PyErr Int :=
  classScanPyLoop cc s slen (slen - pos).toNat cc.mincount cc.maxcount pos

/-- The scanner variants.  cclassCy is the CharacterClass of
_cy_machine.pyx/scanners.pyx, cclassPy the one of machine.pyx.  The regex
scanner delegates to a host regex engine (the Python re module, external to
the modelled modules); its engine is an abstract anchored-match function
returning the end of the match, per the spec. -/
inductive ScannerV
  | dot
  | literal (x : List Char)
  | cclassCy (cc : CharacterClass)
  | cclassPy (cc : CharacterClass)
  | regex (engine : List Char → Int → Option Int)

/-- The _scan method of each scanner (may raise IndexError). -/
def scanUnder (v : ScannerV) (s : List Char) (pos slen : Int) : Except PyErr Int :=
  match v with
  | .dot => .ok (if pos < slen then pos + 1 else FAILURE)
  | .literal x =>
    let e := pos + (x.length : Int)
    .ok (if pySlice s pos e ≠ x then FAILURE else e)
  | .cclassCy cc => classScanCy cc s pos slen
  | .cclassPy cc => classScanPy cc s pos slen
  | .regex f => .ok (match f s pos with | none => FAILURE | some e => e)

/-- The public Scanner.scan(s, pos): calls _scan(s, pos, len(s)) and converts
an IndexError into FAILURE; any other exception propagates. -/
def scanPublic (v : ScannerV) (s : List Char) (pos : Int) : Except PyErr Int :=
  match scanUnder v s pos (s.length : Int) with
  | .error .indexError => .ok FAILURE
  | .error e => .error e
  | .ok n => .ok n

/-! ## Instructions and the parsing machine (_cy_machine.pyx) -/

/-- VM opcodes (the cdef enum OpCode). -/
inductive OpCode
  | FAIL | PASS | BRANCH | COMMIT | UPDATE | RESTORE | FAILTWICE
  | CALL | RETURN | JUMP | SCAN | NOOP
deriving DecidableEq, Repr

/-- An instruction record (cdef class Instruction), with the constructor's
default values. -/
structure Instr where
  opcode : OpCode
  oploc : Int := 1
  scanner : Option ScannerV := none
  marking : Bool := false
  capturing : Bool := false
  action : Option ActionFn := none
  name : Option String := none

/-- Instruction(opcode) with all defaults. -/
def mkInstr (op : OpCode) : Instr := { opcode := op }

/-- A stack entry (cdef struct State); the linked stack is a list with the
top at the head. -/
structure Frame where
  opidx : Int
  pos : Int
  mark : Int
  argidx : Int
  kwidx : Int
deriving DecidableEq, Repr

/-- The bottom failure-fallback frame pushed by _Parser.match. -/
def FAILBASE : Frame := ⟨0, 0, -1, 0, 0⟩

/-- The success-fallback frame pushed by _Parser.match above the bottom. -/
def SUCCBASE : Frame := ⟨-1, -1, -1, 0, 0⟩

/-- The frame pushed when an instruction is marking. -/
def markFrame (pos : Int) (args : List Value) (kwargs : List (String × Value)) : Frame :=
  ⟨0, -1, pos, (args.length : Int), (kwargs.length : Int)⟩

/-- How a finished VM loop exited: through the PASS break, through the
failure unwinding consuming the last stack entry, or through some other pop
leaving the stack empty (the while condition then ends the loop). -/
inductive ExitKind
  | pass | failExit | other
deriving DecidableEq, Repr

/-- Result of running the VM loop: the value _Parser.match returns together
with the caller-visible args and kwargs lists, a raised exception, or fuel
exhaustion (the model's stand-in for non-termination). The Bool records
whether the run stayed on the disciplined-stack path: it is cleared when an
UPDATE mutates the last remaining frame or a RESTORE restores a frame
without a saved position. -/
inductive VMOut
  | done (ek : ExitKind) (pos : Int) (args : List Value)
         (kwargs : List (String × Value)) (safe : Bool)
  | err (e : PyErr)
  | out
deriving DecidableEq, Repr

/-- One loop iteration either continues with a new machine state or halts. -/
inductive StepOut
  | cont (idx pos : Int) (args : List Value) (kwargs : List (String × Value))
         (stack : List Frame) (safe : Bool)
  | halt (o : VMOut)
deriving DecidableEq, Repr

/-- Python list indexing into the program (pi[idx]); negative indices wrap
(the success fallback re-enters at pi[-1], the trailing PASS). -/
def pyGetInstr (pi : List Instr) (i : Int) : Except PyErr Instr :=
  let j := pyIdx pi.length i
  if h : 0 ≤ j ∧ j < (pi.length : Int) then .ok (pi.get ⟨j.toNat, by omega⟩)
  else .error .indexError

/-- The failure post-processing of _Parser._match: pop entries while their
saved pos is negative, restore from the surviving entry, truncate the value
lists to its recorded lengths, and pop it too.  An empty stack after that
final pop ends the while loop, which reports -1. -/
def unwindFail (args : List Value) (kwargs : List (String × Value))
    (stack : List Frame) (safe : Bool) : StepOut :=
  match stack.dropWhile (fun f => f.pos < 0) with
  | [] => .halt (.err (.error "null stack"))
  | f :: rest =>
    let args2 := pySetSlice args f.argidx []
    let kwargs2 := if kwargs.isEmpty then kwargs else pySetSlice kwargs f.kwidx []
    match rest with
    | [] => .halt (.done .failExit (-1) args2 kwargs2 safe)
    | _ => .cont f.opidx f.pos args2 kwargs2 rest safe

/-- The capturing half of the success post-processing: replace the args
from the mark entry's length on with the one marked substring, truncate the
kwargs, and pop the mark entry. -/
def capStage (s : List Char) (instr : Instr) (pos : Int) (args : List Value)
    (kwargs : List (String × Value)) (stack : List Frame) :
    Except PyErr (List Value × List (String × Value) × List Frame) :=
  if instr.capturing then
    match stack with
    | [] => .error (.error "pop from empty stack")
    | f :: rest =>
      .ok (pySetSlice args f.argidx [Value.str (pySlice s f.mark pos)],
           pySetSlice kwargs f.kwidx [], rest)
  else .ok (args, kwargs, stack)

/-- The action half of the success post-processing: call the action on the
local value slices, splice its results in, and pop the mark entry. -/
def actStage (s : List Char) (instr : Instr) (pos : Int) (args : List Value)
    (kwargs : List (String × Value)) (stack : List Frame) :
    Except PyErr (List Value × List (String × Value) × List Frame) :=
  match instr.action with
  | none => .ok (args, kwargs, stack)
  | some act =>
    match stack with
    | [] => .error (.error "pop from empty stack")
    | f :: rest =>
      match act.run s f.mark pos (pyDropSlice args f.argidx)
            (pyDict (pyDropSlice kwargs f.kwidx)) with
      | .error e => .error e
      | .ok res =>
        .ok (pySetSlice args f.argidx res.1,
             (if res.2.isEmpty then pySetSlice kwargs f.kwidx []
              else pySetSlice kwargs f.kwidx res.2),
             rest)

/-- The success post-processing of _Parser._match: apply the capturing flag,
then the action, each popping the mark entry it consumed, then advance. -/
def successPost (s : List Char) (instr : Instr) (idx pos : Int)
    (args : List Value) (kwargs : List (String × Value))
    (stack : List Frame) (safe : Bool) : StepOut :=
  match capStage s instr pos args kwargs stack with
  | .error e => .halt (.err e)
  | .ok (args2, kwargs2, stack2) =>
    match actStage s instr pos args2 kwargs2 stack2 with
    | .error e => .halt (.err e)
    | .ok (args3, kwargs3, stack3) => .cont (idx + 1) pos args3 kwargs3 stack3 safe

/-- The opcode dispatch of one loop iteration, after the marking push. -/
def vmDispatch (instr : Instr) (s : List Char) (idx pos : Int)
    (args : List Value) (kwargs : List (String × Value))
    (stack : List Frame) (safe : Bool) : StepOut :=
  match stack with
  | [] => .halt (.err (.error "pop from empty stack"))
  | top :: rest =>
    match instr.opcode with
    | .SCAN =>
      match instr.scanner with
      | none => .halt (.err (.error "invalid operation"))
      | some sc =>
        match scanUnder sc s pos (s.length : Int) with
        | .error e => .halt (.err e)
        | .ok p2 =>
          if p2 < 0 then unwindFail args kwargs (top :: rest) safe
          else successPost s instr idx p2 args kwargs (top :: rest) safe
    | .BRANCH =>
      .cont (idx + 1) pos args kwargs
        (⟨idx + instr.oploc, pos, -1, (args.length : Int), (kwargs.length : Int)⟩
          :: top :: rest) safe
    | .CALL =>
      .cont instr.oploc pos args kwargs (⟨idx + 1, -1, -1, -1, -1⟩ :: top :: rest) safe
    | .COMMIT => .cont (idx + instr.oploc) pos args kwargs rest safe
    | .UPDATE =>
      .cont (idx + instr.oploc) pos args kwargs
        ({ top with pos := pos, argidx := (args.length : Int),
                    kwidx := (kwargs.length : Int) } :: rest)
        (safe && !rest.isEmpty)
    | .RESTORE =>
      .cont (idx + instr.oploc) top.pos args kwargs rest (safe && decide (0 ≤ top.pos))
    | .FAILTWICE => unwindFail args kwargs rest safe
    | .RETURN => .cont top.opidx pos args kwargs rest safe
    | .PASS => .halt (.done .pass pos args kwargs safe)
    | .FAIL => unwindFail args kwargs (top :: rest) safe
    | .NOOP => successPost s instr idx pos args kwargs (top :: rest) safe
    | .JUMP => .halt (.err (.error "invalid operation"))

/-- One iteration of the while loop of _Parser._match (the stack is known
non-empty when it runs): fetch, push a mark entry if marking, dispatch. -/
def vmStep (pi : List Instr) (s : List Char) (idx pos : Int)
    (args : List Value) (kwargs : List (String × Value))
    (stack : List Frame) (safe : Bool) : StepOut :=
  match pyGetInstr pi idx with
  | .error e => .halt (.err e)
  | .ok instr =>
    vmDispatch instr s idx pos args kwargs
      (if instr.marking then markFrame pos args kwargs :: stack else stack) safe

/-- The while loop of _Parser._match, bounded by fuel.  An empty stack ends
the loop; _Parser.match then reports -1 (it pushes a fresh state with
pos = -1 and returns that pos). -/
def vmRun (pi : List Instr) (s : List Char) :
    Nat → Int → Int → List Value → List (String × Value) → List Frame → Bool → VMOut
  | 0, _, _, _, _, _, _ => .out
  | Nat.succ fuel, idx, pos, args, kwargs, stack, safe =>
    if stack.isEmpty then .done .other (-1) args kwargs safe
    else
      match vmStep pi s idx pos args kwargs stack safe with
      | .halt o => o
      | .cont idx2 pos2 args2 kwargs2 stack2 safe2 =>
        vmRun pi s fuel idx2 pos2 args2 kwargs2 stack2 safe2

/-- _Parser.match(idx, s, pos, [], [], memo): push the failure fallback and
the success fallback, run the loop, and return the end position together
with the caller-visible accumulator lists. -/
def parserMatch (pi : List Instr) (fuel : Nat) (idx : Int) (s : List Char)
    (pos : Int) : VMOut :=
  vmRun pi s fuel idx pos [] [] [SUCCBASE, FAILBASE] true

/-- A successful Match object as assembled by MachineParser.match. -/
structure MatchRes where
  string : List Char
  pos : Int
  endpos : Int
  args : List Value
  kwargs : List (String × Value)
deriving DecidableEq, Repr

/-- MachineParser.match: look up the start rule, run the machine, and return
None when the end position is negative, else a Match. -/
def machineMatch (pi : List Instr) (index : List (String × Nat)) (start : String)
    (fuel : Nat) (s : List Char) (pos : Int) : Except PyErr (Option MatchRes) :=
  match (index.find? (fun p => p.1 = start)).map (fun p => p.2) with
  | none => .error (.keyError start)
  | some idx =>
    match parserMatch pi fuel (idx : Int) s pos with
    | .done _ endp args kwargs _ =>
      if endp < 0 then .ok none
      else .ok (some ⟨s, pos, endp, args, pyDict kwargs⟩)
    | .err e => .error e
    | .out => .error (.error "fuel exhausted")

/-! ## Operator trees and program creation (_make_program and friends) -/

/-- The operator tree.  RGX carries the compiled host regex as an abstract
anchored-match engine; RUL carries its optional action (the rule name the
source also stores is irrelevant to compilation). -/
inductive Defn
  | DOT
  | LIT (x : List Char)
  | CLS (spec : List (Char × Option Char)) (negate : Bool)
  | RGX (engine : List Char → Int → Option Int)
  | OPT (e : Defn)
  | STR (e : Defn)
  | PLS (e : Defn)
  | SYM (name : String)
  | AND (e : Defn)
  | NOT (e : Defn)
  | CAP (e : Defn)
  | BND (name : String) (e : Defn)
  | SEQ (es : List Defn)
  | CHC (es : List Defn)
  | RUL (e : Defn) (act : Option ActionFn)

/-- Whether a definition is a choice (defn.op == Operator.CHC). -/
def isChc : Defn → Bool
  | .CHC _ => true
  | _ => false

/-- Determine a value slice: its first element, or None when empty. -/
def determine (vs : List Value) : Value :=
  match vs with
  | [] => .pyNone
  | v :: _ => v

/-- Modelled from the spec: the Bind(name) action of pe.actions (a module
the machine imports but that is not among the modelled sources).  Per the
spec it replaces the local args with nothing and binds the determined value
of the local args to the name. -/
def bindAction (name : String) : ActionFn :=
  ⟨fun _ _ _ largs _ => .ok ([], [(name, determine largs)])⟩

/-- The opcodes that can never carry captures or actions (NO_CAP_OR_ACT). -/
def NO_CAP_OR_ACT : List OpCode :=
  [.CALL, .COMMIT, .UPDATE, .RESTORE, .FAILTWICE, .RETURN]

/-- _opt: BRANCH over the body, COMMIT past the loop-less tail. -/
def optWrap (pis : List Instr) : List Instr :=
  { opcode := .BRANCH, oploc := (pis.length : Int) + 2 } ::
    pis ++ [{ opcode := .COMMIT, oploc := 1 }]

/-- The generic repetition form of _rpt: mincount mandatory copies, then
BRANCH / body / UPDATE looping back. -/
def rptLoop (pis : List Instr) (mincount : Nat) : List Instr :=
  (List.replicate mincount pis).flatten ++
    ({ opcode := .BRANCH, oploc := (pis.length : Int) + 2 } ::
      pis ++ [{ opcode := .UPDATE, oploc := -(pis.length : Int) }])

/-- The collapse test of _rpt: a lone SCAN of a CharacterClass with no
marking, capturing, or action collapses into one SCAN whose scanner takes
the quantifier's mincount and an unbounded maxcount. -/
def collapseClass (pi0 : Instr) (mincount : Nat) : Option Instr :=
  match pi0.scanner with
  | some (.cclassCy cc) =>
    if pi0.opcode = .SCAN ∧ ¬(pi0.marking = true ∨ pi0.capturing = true) ∧
        pi0.action.isNone = true then
      some { opcode := .SCAN,
             scanner := some (.cclassCy { cc with mincount := (mincount : Int), maxcount := -1 }),
             marking := pi0.marking, capturing := pi0.capturing, action := pi0.action }
    else none
  | _ => none

/-- _rpt: collapse a lone Class SCAN, else emit the generic loop form. -/
def rptWrap : List Instr → Nat → List Instr
  | [pi0], mincount =>
    match collapseClass pi0 mincount with
    | some i => [i]
    | none => rptLoop [pi0] mincount
  | pis, mincount => rptLoop pis mincount

/-- _and: BRANCH
 over the body, RESTORE the lookahead position, and a FAIL
for the branch target. -/
def andWrap (pis : List Instr) : List Instr :=
  { opcode := .BRANCH, oploc := (pis.length : Int) + 2 } ::
    pis ++ [{ opcode := .RESTORE, oploc := 2 }, mkInstr .FAIL]

/-- _not: BRANCH over the body, FAILTWICE when the body succeeded. -/
def notWrap (pis : List Instr) : List Instr :=
  { opcode := .BRANCH, oploc := (pis.length : Int) + 2 } ::
    pis ++ [mkInstr .FAILTWICE]

/-- Set marking on the first instruction, inserting a marking NOOP when it
is already marking (empty lists are rejected by the callers). -/
def markHead (pis : List Instr) : List Instr :=
  match pis with
  | [] => []
  | pi0 :: rest =>
    if pi0.marking = false then { pi0 with marking := true } :: rest
    else { opcode := .NOOP, marking := true } :: pi0 :: rest

/-- The tail half of _cap: set capturing on the last instruction unless it
already captures, has an action, is a stack-manipulating opcode, or the
captured expression is a choice; then a capturing NOOP is appended. -/
def capTail (capturedChoice : Bool) (pis : List Instr) : List Instr :=
  if (pis.getLastD (mkInstr .NOOP)).capturing = false ∧
      (pis.getLastD (mkInstr .NOOP)).action.isNone = true ∧
      (pis.getLastD (mkInstr .NOOP)).opcode ∉ NO_CAP_OR_ACT ∧ capturedChoice = false then
    pis.dropLast ++ [{ pis.getLastD (mkInstr .NOOP) with capturing := true }]
  else
    pis ++ [{ opcode := .NOOP, capturing := true }]

/-- _cap (indexing pis[0] of an empty body raises IndexError). -/
def capWrap (capturedChoice : Bool) (pis : List Instr) : Except PyErr (List Instr) :=
  match pis with
  | [] => .error .indexError
  | _ => .ok (capTail capturedChoice (markHead pis))

/-- The tail half of _rul: attach the action to the last instruction unless
it has one or is a stack-manipulating opcode; then an action NOOP is
appended. -/
def rulTail (act : ActionFn) (pis : List Instr) : List Instr :=
  if (pis.getLastD (mkInstr .NOOP)).action.isNone = true ∧
      (pis.getLastD (mkInstr .NOOP)).opcode ∉ NO_CAP_OR_ACT then
    pis.dropLast ++ [{ pis.getLastD (mkInstr .NOOP) with action := some act }]
  else
    pis ++ [{ opcode := .NOOP, action := some act }]

/-- _rul: without an action the body is returned untouched; with one, the
head is marked and the tail carries the action. -/
def rulWrap (act : Option ActionFn) (pis : List Instr) : Except PyErr (List Instr) :=
  match act with
  | none => .ok pis
  | some a =>
    match pis with
    | [] => .error .indexError
    | _ => .ok (rulTail a (markHead pis))

/-- _parsing_instructions, bounded by the Python recursion limit (the Nat
argument).  SEQ concatenates its members' code in order; CHC right-folds
BRANCH / alternative / COMMIT over the alternatives; empty SEQ or CHC
argument lists make the source index into an empty list. -/
def parsingInstrs : Nat → Defn → Except PyErr (List Instr)
  | 0, _ => .error (.error "maximum recursion depth exceeded")
  | Nat.succ _, .DOT => .ok [{ opcode := .SCAN, scanner := some .dot }]
  | Nat.succ _, .LIT x => .ok [{ opcode := .SCAN, scanner := some (.literal x) }]
  | Nat.succ _, .CLS spec neg =>
    .ok [{ opcode := .SCAN, scanner := some (.cclassCy (mkCharacterClass spec neg 1 1)) }]
  | Nat.succ _, .RGX f => .ok [{ opcode := .SCAN, scanner := some (.regex f) }]
  | Nat.succ k, .OPT e => do pure (optWrap (← parsingInstrs k e))
  | Nat.succ k, .STR e => do pure (rptWrap (← parsingInstrs k e) 0)
  | Nat.succ k, .PLS e => do pure (rptWrap (← parsingInstrs k e) 1)
  | Nat.succ _, .SYM n => .ok [{ opcode := .CALL, name := some n }]
  | Nat.succ k, .AND e => do pure (andWrap (← parsingInstrs k e))
  | Nat.succ k, .NOT e => do pure (notWrap (← parsingInstrs k e))
  | Nat.succ k, .CAP e => do capWrap (isChc e) (← parsingInstrs k e)
  | Nat.succ k, .BND n e => do rulWrap (some (bindAction n)) (← parsingInstrs k e)
  | Nat.succ _, .SEQ [] => .error .indexError
  | Nat.succ k, .SEQ (d :: rest) => do
    let l ← parsingInstrs k d
    match rest with
    | [] => pure l
    | _ => do pure (l ++ (← parsingInstrs k (.SEQ rest)))
  | Nat.succ _, .CHC [] => .error .indexError
  | Nat.succ k, .CHC [d] => parsingInstrs k d
  | Nat.succ k, .CHC (d :: d2 :: rest) => do
    let l ← parsingInstrs k d
    let l2 ← parsingInstrs k (.CHC (d2 :: rest))
    pure ({ opcode := .BRANCH, oploc := (l.length : Int) + 2 } ::
      l ++ ({ opcode := .COMMIT, oploc := (l2.length : Int) + 1 } :: l2))
  | Nat.succ k, .RUL e act => do rulWrap act (← parsingInstrs k e)

/-- Python dict assignment d[k] = v on an association list. -/
def dictSet (d : List (String × Nat)) (k : String) (v : Nat) : List (String × Nat) :=
  if d.any (fun p => p.1 = k) then d.map (fun p => if p.1 = k then (k, v) else p)
  else d ++ [(k, v)]

/-- Python dict lookup d[k] as an Option. -/
def dictGet (d : List (String × Nat)) (k : String) : Option Nat :=
  (d.find? (fun p => p.1 = k)).map (fun p => p.2)

/-- The per-rule loop of _make_program: record each rule's address, then its
compiled body followed by a RETURN. -/
def buildRules (fuel : Nat) :
    List (String × Defn) → List Instr → List (String × Nat) →
    Except PyErr (List Instr × List (String × Nat))
  | [], pis, index => .ok (pis, index)
  | (name, d) :: rest, pis, index => do
    let body ← parsingInstrs fuel d
    buildRules fuel rest (pis ++ body ++ [mkInstr .RETURN]) (dictSet index name pis.length)

/-- The post-pass of _make_program: give every CALL the address of its rule
(index[pi.name] raises KeyError for an unknown name). -/
def resolveCalls (index : List (String × Nat)) : List Instr → Except PyErr (List Instr)
  | [] => .ok []
  | i :: rest => do
    let i2 ←
      if i.opcode = .CALL then
        match i.name with
        | none => Except.error (PyErr.keyError "None")
        | some n =>
          match dictGet index n with
          | none => Except.error (PyErr.keyError n)
          | some v => Except.ok { i with oploc := (v : Int) }
      else Except.ok i
    let rest2 ← resolveCalls index rest
    .ok (i2 :: rest2)

/-- _make_program: the FAIL sentinel at address 0, each rule body followed
by RETURN, the CALL resolution post-pass, and the PASS sentinel at the
end. -/
def makeProgram (fuel : Nat) (g : List (String × Defn)) :
    Except PyErr (List Instr × List (String × Nat)) := do
  let (pis, index) ← buildRules fuel g [mkInstr .FAIL] []
  let pis2 ← resolveCalls index pis
  .ok (pis2 ++ [mkInstr .PASS], index)

/-- The SYM names referenced anywhere in a definition, in tree order. -/
def symNames : Nat → Defn → List String
  | 0, _ => []
  | Nat.succ _, .SYM n => [n]
  | Nat.succ k, .OPT e => symNames k e
  | Nat.succ k, .STR e => symNames k e
  | Nat.succ k, .PLS e => symNames k e
  | Nat.succ k, .AND e => symNames k e
  | Nat.succ k, .NOT e => symNames k e
  | Nat.succ k, .CAP e => symNames k e
  | Nat.succ k, .BND _ e => symNames k e
  | Nat.succ k, .RUL e _ => symNames k e
  | Nat.succ k, .SEQ (d :: rest) => symNames k d ++ symNames k (.SEQ rest)
  | Nat.succ k, .CHC (d :: rest) => symNames k d ++ symNames k (.CHC rest)
  | Nat.succ _, _ => []

/-- All rule names referenced by a grammar. -/
def grammarSyms (fuel : Nat) (g : List (String × Defn)) : List String :=
  (g.map (fun p => symNames fuel p.2)).flatten

/-- The rule names a grammar defines. -/
def grammarDefs (g : List (String × Defn)) : List String := g.map (fun p => p.1)

/-- Modelled from the spec: the grammar validation of the compile() front
end (the pe grammar machinery outside the machine modules, absent from the
modelled sources), which "Fails with error(\"undefined rule: N\")" when a
referenced rule name has no definition. -/
def validateGrammar (fuel : Nat) (g : List (String × Defn)) : Except PyErr Unit :=
  match (grammarSyms fuel g).find? (fun n => !(grammarDefs g).contains n) with
  | some n => .error (.error ("undefined rule: " ++ n))
  | none => .ok ()

/-- compile(): validate the grammar (spec-modelled front end), then build
the instruction program. -/
def compileGrammar (fuel : Nat) (g : List (String × Defn)) :
    Except PyErr (List Instr × List (String × Nat)) := do
  validateGrammar fuel g
  makeProgram fuel g

deriving instance DecidableEq for Except

/-! ## General lemmas -/

/-- pyGetChar can only raise IndexError. -/
theorem pyGetChar_err {s : List Char} {i : Int} {e : PyErr}
    (h : pyGetChar s i = .error e) : e = .indexError := by
  unfold pyGetChar at h
  split at h
  · exact absurd h (by simp)
  · exact (Except.error.inj h).symm

/-- The cy class-scan loop can only raise IndexError. -/
theorem classScanCyLoop_err {cc : CharacterClass} {s : List Char} {slen : Int} :
    ∀ {k : Nat} {rsuf mincount maxcount pos e},
      classScanCyLoop cc s slen k rsuf mincount maxcount pos = .error e →
      e = .indexError := by
  intro k
  induction k with
  | zero => intro _ _ _ _ _ h; simp [classScanCyLoop] at h
  | succ k ih =>
    intro rsuf mincount maxcount pos e h
    unfold classScanCyLoop at h
    split at h
    · cases hg : pyGetChar s pos with
      | error e2 =>
        simp only [hg] at h
        cases h
        exact pyGetChar_err hg
      | ok c =>
        simp only [hg] at h
        split at h <;> (try split at h) <;> first | exact ih h | simp at h
    · simp at h

/-- The machine.pyx class-scan loop can only raise IndexError. -/
theorem classScanPyLoop_err {cc : CharacterClass} {s : List Char} {slen : Int} :
    ∀ {k : Nat} {mincount maxcount pos e},
      classScanPyLoop cc s slen k mincount maxcount pos = .error e →
      e = .indexError := by
  intro k
  induction k with
  | zero => intro _ _ _ _ h; simp [classScanPyLoop] at h
  | succ k ih =>
    intro mincount maxcount pos e h
    unfold classScanPyLoop at h
    split at h
    · cases hg : pyGetChar s pos with
      | error e2 =>
        simp only [hg] at h
        cases h
        exact pyGetChar_err hg
      | ok c =>
        simp only [hg] at h
        split at h <;> (try split at h) <;> first | exact ih h | simp at h
    · simp at h

/-- A _scan method can only raise IndexError. -/
theorem scanUnder_err {v : ScannerV} {s : List Char} {pos slen : Int} {e : PyErr}
    (h : scanUnder v s pos slen = .error e) : e = .indexError := by
  cases v with
  | dot => simp [scanUnder] at h
  | literal x => simp [scanUnder] at h
  | cclassCy cc => exact classScanCyLoop_err h
  | cclassPy cc => exact classScanPyLoop_err h
  | regex f => simp [scanUnder] at h

/-! ## Claim theorems: scanners -/

/-- The character test the spec ascribes to Class scanners: (character in
the discrete set OR character within some lo-hi range of the spec) XOR
neg. -/
def classCharMatch (cc : CharacterClass) (c : Char) : Bool :=
  xor (cc.chars.contains c ||
    cc.ranges.any (fun p => decide (p.1 ≤ c) && decide (c ≤ p.2))) cc.negate

/-- Claim C1.  The CharacterClass scanner of _cy_machine.pyx/scanners.pyx
does not test every character of the run against all listed ranges: with
spec ranges 0-9 and a-z, minN 1, maxN unbounded, scanning "a0" stops after
"a" (the persistent range index has advanced past 0-9 when "0" is tested)
and returns position 1, although both characters satisfy the claim's
per-character test (the machine.pyx variant returns 2 accordingly). -/
theorem pe_C1_class_scan_bug :
    classScanCy (mkCharacterClass [('0', some '9'), ('a', some 'z')] false 1 (-1))
      "a0".toList 0 2 = .ok 1 ∧
    classScanPy (mkCharacterClass [('0', some '9'), ('a', some 'z')] false 1 (-1))
      "a0".toList 0 2 = .ok 2 ∧
    classCharMatch (mkCharacterClass [('0', some '9'), ('a', some 'z')] false 1 (-1)) 'a' = true ∧
    classCharMatch (mkCharacterClass [('0', some '9'), ('a', some 'z')] false 1 (-1)) '0' = true :=
  ⟨by decide, by decide, by decide, by decide⟩

/-- Claim C10.  Every public scan(s, pos) call returns an integer: the only
exception any _scan can raise is IndexError, and scan converts it to
FAILURE. -/
theorem pe_C10_scan_total (v : ScannerV) (s : List Char) (pos : Int) :
    ∃ n : Int, scanPublic v s pos = .ok n := by
  unfold scanPublic
  cases h : scanUnder v s pos (s.length : Int) with
  | ok n => exact ⟨n, rfl⟩
  | error e =>
    have he := scanUnder_err h
    subst he
    exact ⟨FAILURE, rfl⟩

/-! ## Claim theorems: quantifier collapse (C2) -/

/-- The operator STR([0-9a-z]) as a one-rule grammar. -/
def gC2 : List (String × Defn) :=
  [("Start", .STR (.CLS [('0', some '9'), ('a', some 'z')] false))]

/-- What the compiler emits for gC2: the collapsed single SCAN whose Class
scanner has minN 0 and unbounded maxN. -/
def progC2col : List Instr :=
  [mkInstr .FAIL,
   { opcode := .SCAN,
     scanner := some (.cclassCy
       { chars := [], ranges := [('0', '9'), ('a', 'z')],
         negate := false, mincount := 0, maxcount := -1 }) },
   mkInstr .RETURN,
   mkInstr .PASS]

/-- The un-collapsed loop form of STR for the same operator, as the claim
describes it: BRANCH(+len(e)+2), e, UPDATE(-len(e)) with e the single SCAN
of the Class scanner with minN = maxN = 1. -/
def progC2loop : List Instr :=
  [mkInstr .FAIL,
   { opcode := .BRANCH, oploc := 3 },
   { opcode := .SCAN,
     scanner := some (.cclassCy
       { chars := [], ranges := [('0', '9'), ('a', 'z')],
         negate := false, mincount := 1, maxcount := 1 }) },
   { opcode := .UPDATE, oploc := -1 },
   mkInstr .RETURN,
   mkInstr .PASS]

/-- Claim C2.  The collapsed compilation of STR over a Class scanner is not
equivalent to the un-collapsed loop form: on input "a0" the collapsed
program ends at position 1 while the loop form ends at position 2, because
the collapsed form runs one _scan call whose range index persists across
characters while the loop form restarts _scan (and that index) for every
character. -/
theorem pe_C2_collapse_divergence :
    makeProgram 50 gC2 = .ok (progC2col, [("Start", 1)]) ∧
    parserMatch progC2col 100 1 "a0".toList 0 = .done .pass 1 [] [] true ∧
    parserMatch progC2loop 100 1 "a0".toList 0 = .done .pass 2 [] [] true ∧
    (1 : Int) ≠ 2 :=
  ⟨by rfl, by decide, by decide, by decide⟩

/-! ## Claim theorems: prioritized choice scenario (C4) -/

/-- Start <- ("ab" / "a") "c". -/
def gC4a : List (String × Defn) :=
  [("Start", .SEQ [.CHC [.LIT ['a', 'b'], .LIT ['a']], .LIT ['c']])]

/-- Start <- ("a" / "ab") "c". -/
def gC4b : List (String × Defn) :=
  [("Start", .SEQ [.CHC [.LIT ['a'], .LIT ['a', 'b']], .LIT ['c']])]

/-- Compiled form of gC4a. -/
def progC4a : List Instr :=
  [mkInstr .FAIL,
   { opcode := .BRANCH, oploc := 3 },
   { opcode := .SCAN, scanner := some (.literal ['a', 'b']) },
   { opcode := .COMMIT, oploc := 2 },
   { opcode := .SCAN, scanner := some (.literal ['a']) },
   { opcode := .SCAN, scanner := some (.literal ['c']) },
   mkInstr .RETURN,
   mkInstr .PASS]

/-- Compiled form of gC4b. -/
def progC4b : List Instr :=
  [mkInstr .FAIL,
   { opcode := .BRANCH, oploc := 3 },
   { opcode := .SCAN, scanner := some (.literal ['a']) },
   { opcode := .COMMIT, oploc := 2 },
   { opcode := .SCAN, scanner := some (.literal ['a', 'b']) },
   { opcode := .SCAN, scanner := some (.literal ['c']) },
   mkInstr .RETURN,
   mkInstr .PASS]

/-- Claim C4.  Start <- ("ab" / "a") "c" matches "abc" with end position 3;
with the alternatives reversed the match fails (the choice commits to "a"
and never retries "ab"), and the parser-level wrapper reports None. -/
theorem pe_C4_prioritized_choice :
    makeProgram 50 gC4a = .ok (progC4a, [("Start", 1)]) ∧
    parserMatch progC4a 100 1 "abc".toList 0 = .done .pass 3 [] [] true ∧
    makeProgram 50 gC4b = .ok (progC4b, [("Start", 1)]) ∧
    parserMatch progC4b 100 1 "abc".toList 0 = .done .failExit (-1) [] [] true ∧
    machineMatch progC4b [("Start", 1)] "Start" 100 "abc".toList 0 = .ok none :=
  ⟨by rfl, by decide, by rfl, by decide, by decide⟩

/-! ## Claim theorems: capture placement (C6) -/

/-- The operator e = "b" ("a" / "c"): a sequence whose last instruction
belongs to a choice. -/
def eC6 : Defn := .SEQ [.LIT ['b'], .CHC [.LIT ['a'], .LIT ['c']]]

/-- Compiled form of CAP(eC6): marking lands on the first SCAN and
capturing on the last SCAN of the trailing choice. -/
def progC6cap : List Instr :=
  [mkInstr .FAIL,
   { opcode := .SCAN, scanner := some (.literal ['b']), marking := true },
   { opcode := .BRANCH, oploc := 3 },
   { opcode := .SCAN, scanner := some (.literal ['a']) },
   { opcode := .COMMIT, oploc := 2 },
   { opcode := .SCAN, scanner := some (.literal ['c']), capturing := true },
   mkInstr .RETURN,
   mkInstr .PASS]

/-- Compiled form of eC6 alone. -/
def progC6plain : List Instr :=
  [mkInstr .FAIL,
   { opcode := .SCAN, scanner := some (.literal ['b']) },
   { opcode := .BRANCH, oploc := 3 },
   { opcode := .SCAN, scanner := some (.literal ['a']) },
   { opcode := .COMMIT, oploc := 2 },
   { opcode := .SCAN, scanner := some (.literal ['c']) },
   mkInstr .RETURN,
   mkInstr .PASS]

/-- Claim C6.  CAP(e) does not succeed on exactly the inputs where e
succeeds: for e = "b" ("a" / "c") on input "ba", e matches with end
position 2, but the compilation of CAP(e) fails, because the COMMIT of the
first choice alternative jumps past the final instruction that carries the
capturing flag, leaving the mark entry on the stack for the RETURN to
consume.  (On "bc", where the last alternative matches, the capture works
and emits the substring.) -/
theorem pe_C6_capture_choice_tail_bug :
    makeProgram 50 [("Start", .CAP eC6)] = .ok (progC6cap, [("Start", 1)]) ∧
    makeProgram 50 [("Start", eC6)] = .ok (progC6plain, [("Start", 1)]) ∧
    parserMatch progC6plain 100 1 "ba".toList 0 = .done .pass 2 [] [] true ∧
    parserMatch progC6cap 100 1 "ba".toList 0 = .done .failExit (-1) [] [] true ∧
    parserMatch progC6cap 100 1 "bc".toList 0 =
      .done .pass 2 [Value.str ['b', 'c']] [] true :=
  ⟨by rfl, by rfl, by decide, by decide, by decide⟩

/-! ## Claim theorems: lookahead emission (C7) -/

/-- Compiled form of AND(CAP("a")). -/
def progC7and : List Instr :=
  [mkInstr .FAIL,
   { opcode := .BRANCH, oploc := 3 },
   { opcode := .SCAN, scanner := some (.literal ['a']), marking := true, capturing := true },
   { opcode := .RESTORE, oploc := 2 },
   mkInstr .FAIL,
   mkInstr .RETURN,
   mkInstr .PASS]

/-- Compiled form of NOT(NOT(CAP("a"))). -/
def progC7nn : List Instr :=
  [mkInstr .FAIL,
   { opcode := .BRANCH, oploc := 5 },
   { opcode := .BRANCH, oploc := 3 },
   { opcode := .SCAN, scanner := some (.literal ['a']), marking := true, capturing := true },
   mkInstr .FAILTWICE,
   mkInstr .FAILTWICE,
   mkInstr .RETURN,
   mkInstr .PASS]

/-- Claim C7.  For e = CAP("a") on input "a", NOT(NOT(e)) and AND(e) both
succeed at the start position, but they do not both emit no values: AND(e)
leaves the captured "a" in the args accumulator (RESTORE restores only the
cursor, not the value lists), while NOT(NOT(e)) discards it during the
backtrack that implements the double negation. -/
theorem pe_C7_lookahead_emission_bug :
    makeProgram 50 [("Start", .AND (.CAP (.LIT ['a'])))] = .ok (progC7and, [("Start", 1)]) ∧
    makeProgram 50 [("Start", .NOT (.NOT (.CAP (.LIT ['a']))))] =
      .ok (progC7nn, [("Start", 1)]) ∧
    parserMatch progC7and 100 1 "a".toList 0 = .done .pass 0 [Value.str ['a']] [] true ∧
    parserMatch progC7nn 100 1 "a".toList 0 = .done .pass 0 [] [] true ∧
    ([Value.str ['a']] : List Value) ≠ [] :=
  ⟨by rfl, by rfl, by decide, by decide, by decide⟩

/-! ## Claim theorems: DOT boundaries (C8) -/

/-- Compiled form of STR(DOT) (no collapse: Dot is not a Class). -/
def progC8str : List Instr :=
  [mkInstr .FAIL,
   { opcode := .BRANCH, oploc := 3 },
   { opcode := .SCAN, scanner := some .dot },
   { opcode := .UPDATE, oploc := -1 },
   mkInstr .RETURN,
   mkInstr .PASS]

/-- Compiled form of PLS(DOT). -/
def progC8pls : List Instr :=
  [mkInstr .FAIL,
   { opcode := .SCAN, scanner := some .dot },
   { opcode := .BRANCH, oploc := 3 },
   { opcode := .SCAN, scanner := some .dot },
   { opcode := .UPDATE, oploc := -1 },
   mkInstr .RETURN,
   mkInstr .PASS]

/-- Claim C8.  Dot._scan fails at end of input for every string; on empty
input the compilation of STR(DOT) succeeds at position 0 emitting no
values, and the compilation of PLS(DOT) fails. -/
theorem pe_C8_dot_boundaries :
    (∀ s : List Char, scanUnder .dot s (s.length : Int) (s.length : Int) = .ok FAILURE) ∧
    makeProgram 50 [("Start", .STR .DOT)] = .ok (progC8str, [("Start", 1)]) ∧
    makeProgram 50 [("Start", .PLS .DOT)] = .ok (progC8pls, [("Start", 1)]) ∧
    parserMatch progC8str 100 1 [] 0 = .done .pass 0 [] [] true ∧
    parserMatch progC8pls 100 1 [] 0 = .done .failExit (-1) [] [] true :=
  ⟨fun s => by simp [scanUnder], by rfl, by rfl, by decide, by decide⟩

/-! ## Claim theorems: flags on stack-manipulating opcodes (C3) -/

/-- The five stack-manipulating opcodes that may never carry any of
marking, capturing, or an action. -/
def stackyOp (op : OpCode) : Prop :=
  op = .COMMIT ∨ op = .UPDATE ∨ op = .RESTORE ∨ op = .FAILTWICE ∨ op = .RETURN

/-- The invariant compiled instructions actually satisfy: COMMIT, UPDATE,
RESTORE, FAILTWICE, and RETURN never carry marking, capturing, or an
action; CALL never carries capturing or an action (but may carry
marking). -/
def instrOk (i : Instr) : Prop :=
  (stackyOp i.opcode → i.marking = false ∧ i.capturing = false ∧ i.action = none) ∧
  (i.opcode = .CALL → i.capturing = false ∧ i.action = none)

/-- Compiled blocks: non-empty, all instructions satisfy instrOk, and the
first instruction is never one of the five stack-manipulating opcodes (so
marking it is harmless). -/
def blockOk (l : List Instr) : Prop :=
  l ≠ [] ∧ (∀ i ∈ l, instrOk i) ∧ ∀ i0 ∈ l.head?, ¬ stackyOp i0.opcode

theorem instrOk_mkInstr (op : OpCode) : instrOk (mkInstr op) :=
  ⟨fun _ => ⟨rfl, rfl, rfl⟩, fun _ => ⟨rfl, rfl⟩⟩

theorem instrOk_branch (x : Int) : instrOk { opcode := .BRANCH, oploc := x } :=
  ⟨fun h => by simp [stackyOp] at h, fun h => by simp at h⟩

theorem instrOk_commit (x : Int) : instrOk { opcode := .COMMIT, oploc := x } :=
  ⟨fun _ => ⟨rfl, rfl, rfl⟩, fun h => by simp at h⟩

theorem instrOk_update (x : Int) : instrOk { opcode := .UPDATE, oploc := x } :=
  ⟨fun _ => ⟨rfl, rfl, rfl⟩, fun h => by simp at h⟩

theorem not_stackyOp_of_not_mem {op : OpCode} (h : op ∉ NO_CAP_OR_ACT) :
    ¬ stackyOp op ∧ op ≠ .CALL := by
  simp [NO_CAP_OR_ACT] at h
  exact ⟨by simp [stackyOp]; tauto, h.1⟩

theorem getLastD_mem_cons : ∀ (t : List Instr) (a d : Instr), (a :: t).getLastD d ∈ a :: t := by
  intro t
  induction t with
  | nil => intro a d; simp
  | cons b t ih =>
    intro a d
    have := ih b a
    simpa using Or.inr this

/-- Elements of markHead l: the head with marking set, a fresh marking
NOOP, or original elements. -/
theorem markHead_instrOk {l : List Instr}
    (hall : ∀ i ∈ l, instrOk i) (hhead : ∀ i0 ∈ l.head?, ¬ stackyOp i0.opcode) :
    ∀ i ∈ markHead l, instrOk i := by
  cases l with
  | nil => simp [markHead]
  | cons a t =>
    intro i hi
    have ha : instrOk a := hall a (by simp)
    have hsa : ¬ stackyOp a.opcode := hhead a rfl
    simp only [markHead] at hi
    split at hi
    · rcases List.mem_cons.mp hi with h1 | h2
      · subst h1
        exact ⟨fun hs => absurd hs hsa, fun hc => ha.2 hc⟩
      · exact hall i (List.mem_cons_of_mem a h2)
    · rcases List.mem_cons.mp hi with h1 | h2
      · subst h1
        exact ⟨fun hs => by simp [stackyOp] at hs, fun hc => by simp at hc⟩
      · exact hall i h2

theorem markHead_ne_nil {l : List Instr} (h : l ≠ []) : markHead l ≠ [] := by
  cases l with
  | nil => exact absurd rfl h
  | cons a t =>
    simp only [markHead]
    split <;> simp

theorem markHead_headSafe {l : List Instr}
    (hhead : ∀ i0 ∈ l.head?, ¬ stackyOp i0.opcode) :
    ∀ i0 ∈ (markHead l).head?, ¬ stackyOp i0.opcode := by
  cases l with
  | nil => simp [markHead]
  | cons a t =>
    have hsa : ¬ stackyOp a.opcode := hhead a rfl
    simp only [markHead]
    split
    · intro i0 h0
      simp only [List.head?_cons, Option.mem_def, Option.some.injEq] at h0
      subst h0
      exact hsa
    · intro i0 h0
      simp only [List.head?_cons, Option.mem_def, Option.some.injEq] at h0
      subst h0
      simp [stackyOp]

theorem capTail_instrOk {ch : Bool} {l : List Instr}
    (hall : ∀ i ∈ l, instrOk i) :
    ∀ i ∈ capTail ch l, instrOk i := by
  intro i hi
  simp only [capTail] at hi
  split at hi
  · next hguard =>
    rcases List.mem_append.mp hi with h1 | h2
    · exact hall i (List.dropLast_subset l h1)
    · have hns := not_stackyOp_of_not_mem hguard.2.2.1
      simp only [List.mem_singleton] at h2
      subst h2
      exact ⟨fun hs => absurd hs hns.1, fun hc => absurd hc hns.2⟩
  · rcases List.mem_append.mp hi with h1 | h2
    · exact hall i h1
    · simp only [List.mem_singleton] at h2
      subst h2
      exact ⟨fun hs => by simp [stackyOp] at hs, fun hc => by simp at hc⟩

theorem capTail_headSafe {ch : Bool} {l : List Instr} (hne : l ≠ [])
    (hhead : ∀ i0 ∈ l.head?, ¬ stackyOp i0.opcode) :
    ∀ i0 ∈ (capTail ch l).head?, ¬ stackyOp i0.opcode := by
  cases l with
  | nil => exact absurd rfl hne
  | cons a t =>
    have hsa : ¬ stackyOp a.opcode := hhead a rfl
    intro i0 h0
    simp only [capTail] at h0
    split at h0
    · cases t with
      | nil =>
        simp only [List.dropLast_single, List.nil_append, List.head?_cons,
          Option.mem_def, Option.some.injEq] at h0
        subst h0
        simpa using hsa
      | cons b t2 =>
        simp only [List.dropLast_cons₂, List.cons_append, List.head?_cons,
          Option.mem_def, Option.some.injEq] at h0
        subst h0
        exact hsa
    · simp only [List.cons_append, List.head?_cons, Option.mem_def,
        Option.some.injEq] at h0
      subst h0
      exact hsa

theorem capTail_ne_nil {ch : Bool} {l : List Instr} : capTail ch l ≠ [] := by
  simp only [capTail]
  split <;> simp

theorem rulTail_instrOk {a : ActionFn} {l : List Instr}
    (hall : ∀ i ∈ l, instrOk i) :
    ∀ i ∈ rulTail a l, instrOk i := by
  intro i hi
  simp only [rulTail] at hi
  split at hi
  · next hguard =>
    rcases List.mem_append.mp hi with h1 | h2
    · exact hall i (List.dropLast_subset l h1)
    · have hns := not_stackyOp_of_not_mem hguard.2
      simp only [List.mem_singleton] at h2
      subst h2
      exact ⟨fun hs => absurd hs hns.1, fun hc => absurd hc hns.2⟩
  · rcases List.mem_append.mp hi with h1 | h2
    · exact hall i h1
    · simp only [List.mem_singleton] at h2
      subst h2
      exact ⟨fun hs => by simp [stackyOp] at hs, fun hc => by simp at hc⟩

theorem rulTail_headSafe {a : ActionFn} {l : List Instr} (hne : l ≠ [])
    (hhead : ∀ i0 ∈ l.head?, ¬ stackyOp i0.opcode) :
    ∀ i0 ∈ (rulTail a l).head?, ¬ stackyOp i0.opcode := by
  cases l with
  | nil => exact absurd rfl hne
  | cons a0 t =>
    have hsa : ¬ stackyOp a0.opcode := hhead a0 rfl
    intro i0 h0
    simp only [rulTail] at h0
    split at h0
    · cases t with
      | nil =>
        simp only [List.dropLast_single, List.nil_append, List.head?_cons,
          Option.mem_def, Option.some.injEq] at h0
        subst h0
        simpa using hsa
      | cons b t2 =>
        simp only [List.dropLast_cons₂, List.cons_append, List.head?_cons,
          Option.mem_def, Option.some.injEq] at h0
        subst h0
        exact hsa
    · simp only [List.cons_append, List.head?_cons, Option.mem_def,
        Option.some.injEq] at h0
      subst h0
      exact hsa

theorem rulTail_ne_nil {a : ActionFn} {l : List Instr} : rulTail a l ≠ [] := by
  simp only [rulTail]
  split <;> simp

theorem blockOk_capWrap {ch : Bool} {l l2 : List Instr}
    (hb : blockOk l) (h : capWrap ch l = .ok l2) : blockOk l2 := by
  obtain ⟨hne, hall, hhead⟩ := hb
  unfold capWrap at h
  cases l with
  | nil => exact absurd rfl hne
  | cons a t =>
    simp only [] at h
    cases h
    refine ⟨capTail_ne_nil, ?_, ?_⟩
    · exact capTail_instrOk (markHead_instrOk hall hhead)
    · exact capTail_headSafe (markHead_ne_nil hne) (markHead_headSafe hhead)

theorem blockOk_rulWrap {act : Option ActionFn} {l l2 : List Instr}
    (hb : blockOk l) (h : rulWrap act l = .ok l2) : blockOk l2 := by
  obtain ⟨hne, hall, hhead⟩ := hb
  unfold rulWrap at h
  cases act with
  | none =>
    cases h
    exact ⟨hne, hall, hhead⟩
  | some a =>
    cases l with
    | nil => exact absurd rfl hne
    | cons a0 t =>
      simp only [] at h
      cases h
      refine ⟨rulTail_ne_nil, ?_, ?_⟩
      · exact rulTail_instrOk (markHead_instrOk hall hhead)
      · exact rulTail_headSafe (markHead_ne_nil hne) (markHead_headSafe hhead)

theorem blockOk_optWrap {l : List Instr} (hb : blockOk l) : blockOk (optWrap l) := by
  obtain ⟨hne, hall, hhead⟩ := hb
  refine ⟨by simp [optWrap], ?_, ?_⟩
  · intro i hi
    unfold optWrap at hi
    rcases List.mem_cons.mp hi with h1 | h2
    · subst h1
      exact instrOk_branch _
    · rcases List.mem_append.mp h2 with h3 | h4
      · exact hall i h3
      · simp at h4
        subst h4
        exact instrOk_commit _
  · intro i0 h0
    unfold optWrap at h0
    cases h0
    simp [stackyOp]

theorem blockOk_andWrap {l : List Instr} (hb : blockOk l) : blockOk (andWrap l) := by
  obtain ⟨hne, hall, hhead⟩ := hb
  refine ⟨by simp [andWrap], ?_, ?_⟩
  · intro i hi
    unfold andWrap at hi
    rcases List.mem_cons.mp hi with h1 | h2
    · subst h1
      exact instrOk_branch _
    · rcases List.mem_append.mp h2 with h3 | h4
      · exact hall i h3
      · simp at h4
        rcases h4 with h5 | h5 <;> subst h5
        · exact ⟨fun _ => ⟨rfl, rfl, rfl⟩, fun hc => by simp at hc⟩
        · exact instrOk_mkInstr _
  · intro i0 h0
    unfold andWrap at h0
    cases h0
    simp [stackyOp]

theorem blockOk_notWrap {l : List Instr} (hb : blockOk l) : blockOk (notWrap l) := by
  obtain ⟨hne, hall, hhead⟩ := hb
  refine ⟨by simp [notWrap], ?_, ?_⟩
  · intro i hi
    unfold notWrap at hi
    rcases List.mem_cons.mp hi with h1 | h2
    · subst h1
      exact instrOk_branch _
    · rcases List.mem_append.mp h2 with h3 | h4
      · exact hall i h3
      · simp at h4
        subst h4
        exact instrOk_mkInstr _
  · intro i0 h0
    unfold notWrap at h0
    cases h0
    simp [stackyOp]

theorem blockOk_rptLoop {l : List Instr} (m : Nat) (hb : blockOk l) :
    blockOk (rptLoop l m) := by
  obtain ⟨hne, hall, hhead⟩ := hb
  refine ⟨?_, ?_, ?_⟩
  · simp [rptLoop]
  · intro i hi
    unfold rptLoop at hi
    rcases List.mem_append.mp hi with h1 | h2
    · rcases List.mem_flatten.mp h1 with ⟨l3, hl3, hil3⟩
      rcases List.mem_replicate.mp hl3 with ⟨-, rfl⟩
      exact hall i hil3
    · rcases List.mem_cons.mp h2 with h3 | h4
      · subst h3
        exact instrOk_branch _
      · rcases List.mem_append.mp h4 with h5 | h6
        · exact hall i h5
        · simp at h6
          subst h6
          exact instrOk_update _
  · intro i0 h0
    unfold rptLoop at h0
    cases m with
    | zero =>
      simp at h0
      subst h0
      simp [stackyOp]
    | succ m2 =>
      rw [List.replicate_succ, List.flatten_cons, List.append_assoc,
          List.head?_append_of_ne_nil l hne] at h0
      exact hhead i0 h0

theorem collapseClass_opcode {pi0 : Instr} {m : Nat} {i : Instr}
    (h : collapseClass pi0 m = some i) : i.opcode = .SCAN := by
  unfold collapseClass at h
  split at h
  · split at h
    · cases h
      rfl
    · simp at h
  · simp at h

theorem blockOk_rptWrap {l : List Instr} (m : Nat) (hb : blockOk l) :
    blockOk (rptWrap l m) := by
  cases l with
  | nil => simpa only [rptWrap] using blockOk_rptLoop m hb
  | cons a t =>
    cases t with
    | cons b t2 => simpa only [rptWrap] using blockOk_rptLoop m hb
    | nil =>
      simp only [rptWrap]
      cases hcol : collapseClass a m with
      | none => exact blockOk_rptLoop m hb
      | some i =>
        have hop := collapseClass_opcode hcol
        refine ⟨by simp, ?_, ?_⟩
        · intro j hj
          simp only [List.mem_singleton] at hj
          subst hj
          exact ⟨fun hs => by rw [hop] at hs; simp [stackyOp] at hs,
                 fun hc => by rw [hop] at hc; simp at hc⟩
        · intro i0 h0
          simp only [List.head?_cons, Option.mem_def, Option.some.injEq] at h0
          subst h0
          rw [hop]
          simp [stackyOp]

theorem blockOk_single_scan (sc : Option ScannerV) :
    blockOk [{ opcode := .SCAN, scanner := sc }] := by
  refine ⟨by simp, ?_, ?_⟩
  · intro i hi
    simp only [List.mem_singleton] at hi
    subst hi
    exact ⟨fun hs => by simp [stackyOp] at hs, fun hc => by simp at hc⟩
  · intro i0 h0
    simp only [List.head?_cons, Option.mem_def, Option.some.injEq] at h0
    subst h0
    simp [stackyOp]

theorem blockOk_single_call (n : String) :
    blockOk [{ opcode := .CALL, name := some n }] := by
  refine ⟨by simp, ?_, ?_⟩
  · intro i hi
    simp only [List.mem_singleton] at hi
    subst hi
    exact ⟨fun hs => by simp [stackyOp] at hs, fun _ => ⟨rfl, rfl⟩⟩
  · intro i0 h0
    simp only [List.head?_cons, Option.mem_def, Option.some.injEq] at h0
    subst h0
    simp [stackyOp]

/-- Every successfully compiled operator yields a blockOk instruction
list. -/
theorem parsingInstrs_blockOk :
    ∀ (fuel : Nat) (d : Defn) (l : List Instr),
      parsingInstrs fuel d = .ok l → blockOk l := by
  intro fuel
  induction fuel with
  | zero => intro d l h; simp [parsingInstrs] at h
  | succ k ih =>
    intro d l h
    cases d with
    | DOT =>
      cases h
      exact blockOk_single_scan _
    | LIT x =>
      cases h
      exact blockOk_single_scan _
    | CLS spec neg =>
      cases h
      exact blockOk_single_scan _
    | RGX f =>
      cases h
      exact blockOk_single_scan _
    | SYM n =>
      cases h
      exact blockOk_single_call _
    | OPT e =>
      cases hb : parsingInstrs k e with
      | error e2 => simp [parsingInstrs, hb, bind, Except.bind, pure, Except.pure] at h
      | ok lb =>
        simp [parsingInstrs, hb, bind, Except.bind, pure, Except.pure] at h
        subst h
        exact blockOk_optWrap (ih e lb hb)
    | STR e =>
      cases hb : parsingInstrs k e with
      | error e2 => simp [parsingInstrs, hb, bind, Except.bind, pure, Except.pure] at h
      | ok lb =>
        simp [parsingInstrs, hb, bind, Except.bind, pure, Except.pure] at h
        subst h
        exact blockOk_rptWrap 0 (ih e lb hb)
    | PLS e =>
      cases hb : parsingInstrs k e with
      | error e2 => simp [parsingInstrs, hb, bind, Except.bind, pure, Except.pure] at h
      | ok lb =>
        simp [parsingInstrs, hb, bind, Except.bind, pure, Except.pure] at h
        subst h
        exact blockOk_rptWrap 1 (ih e lb hb)
    | AND e =>
      cases hb : parsingInstrs k e with
      | error e2 => simp [parsingInstrs, hb, bind, Except.bind, pure, Except.pure] at h
      | ok lb =>
        simp [parsingInstrs, hb, bind, Except.bind, pure, Except.pure] at h
        subst h
        exact blockOk_andWrap (ih e lb hb)
    | NOT e =>
      cases hb : parsingInstrs k e with
      | error e2 => simp [parsingInstrs, hb, bind, Except.bind, pure, Except.pure] at h
      | ok lb =>
        simp [parsingInstrs, hb, bind, Except.bind, pure, Except.pure] at h
        subst h
        exact blockOk_notWrap (ih e lb hb)
    | CAP e =>
      cases hb : parsingInstrs k e with
      | error e2 => simp [parsingInstrs, hb, bind, Except.bind, pure, Except.pure] at h
      | ok lb =>
        simp only [parsingInstrs, hb, bind, Except.bind] at h
        exact blockOk_capWrap (ih e lb hb) h
    | BND n e =>
      cases hb : parsingInstrs k e with
      | error e2 => simp [parsingInstrs, hb, bind, Except.bind, pure, Except.pure] at h
      | ok lb =>
        simp only [parsingInstrs, hb, bind, Except.bind] at h
        exact blockOk_rulWrap (ih e lb hb) h
    | RUL e act =>
      cases hb : parsingInstrs k e with
      | error e2 => simp [parsingInstrs, hb, bind, Except.bind, pure, Except.pure] at h
      | ok lb =>
        simp only [parsingInstrs, hb, bind, Except.bind] at h
        exact blockOk_rulWrap (ih e lb hb) h
    | SEQ es =>
      cases es with
      | nil => simp [parsingInstrs] at h
      | cons d0 rest =>
        cases hb : parsingInstrs k d0 with
        | error e2 => simp [parsingInstrs, hb, bind, Except.bind, pure, Except.pure] at h
        | ok lb =>
          have hb0 := ih d0 lb hb
          cases rest with
          | nil =>
            simp [parsingInstrs, hb, bind, Except.bind, pure, Except.pure] at h
            subst h
            exact hb0
          | cons d1 rest2 =>
            cases hb2 : parsingInstrs k (.SEQ (d1 :: rest2)) with
            | error e2 => simp [parsingInstrs, hb, hb2, bind, Except.bind, pure, Except.pure] at h
            | ok lb2 =>
              simp [parsingInstrs, hb, hb2, bind, Except.bind, pure, Except.pure] at h
              subst h
              obtain ⟨hne, hall, hhead⟩ := hb0
              obtain ⟨hne2, hall2, hhead2⟩ := ih _ lb2 hb2
              refine ⟨by simp [hne], ?_, ?_⟩
              · intro i hi
                rcases List.mem_append.mp hi with h1 | h2
                · exact hall i h1
                · exact hall2 i h2
              · rw [List.head?_append_of_ne_nil lb hne]
                exact hhead
    | CHC es =>
      cases es with
      | nil => simp [parsingInstrs] at h
      | cons d0 rest =>
        cases rest with
        | nil =>
          have h2 : parsingInstrs k d0 = .ok l := by
            simpa [parsingInstrs, bind, Except.bind, pure, Except.pure] using h
          exact ih d0 l h2
        | cons d1 rest2 =>
          cases hb : parsingInstrs k d0 with
          | error e2 => simp [parsingInstrs, hb, bind, Except.bind, pure, Except.pure] at h
          | ok lb =>
            cases hb2 : parsingInstrs k (.CHC (d1 :: rest2)) with
            | error e2 => simp [parsingInstrs, hb, hb2, bind, Except.bind, pure, Except.pure] at h
            | ok lb2 =>
              simp [parsingInstrs, hb, hb2, bind, Except.bind, pure, Except.pure] at h
              subst h
              obtain ⟨hne, hall, hhead⟩ := ih d0 lb hb
              obtain ⟨hne2, hall2, hhead2⟩ := ih _ lb2 hb2
              refine ⟨by simp, ?_, ?_⟩
              · intro i hi
                rcases List.mem_cons.mp hi with h1 | h2
                · subst h1
                  exact instrOk_branch _
                · rcases List.mem_append.mp h2 with h3 | h4
                  · exact hall i h3
                  · rcases List.mem_cons.mp h4 with h5 | h6
                    · subst h5
                      exact instrOk_commit _
                    · exact hall2 i h6
              · intro i0 h0
                cases h0
                simp [stackyOp]

/-- resolveCalls only rewrites oploc, preserving instrOk. -/
theorem resolveCalls_instrOk {index : List (String × Nat)} :
    ∀ {l l2 : List Instr}, resolveCalls index l = .ok l2 →
      (∀ i ∈ l, instrOk i) → ∀ i ∈ l2, instrOk i := by
  intro l
  induction l with
  | nil =>
    intro l2 h hall
    cases h
    simp
  | cons i0 t ih =>
    intro l2 h hall
    unfold resolveCalls at h
    split at h
    · next hcall =>
      cases hn : i0.name with
      | none => simp [hn, bind, Except.bind] at h
      | some n =>
        cases hv : dictGet index n with
        | none => simp [hn, hv, bind, Except.bind] at h
        | some v =>
          simp only [hn, hv] at h
          cases ht : resolveCalls index t with
          | error e2 => simp [ht, bind, Except.bind] at h
          | ok t2 =>
            simp [ht, bind, Except.bind] at h
            subst h
            intro j hj
            rcases List.mem_cons.mp hj with h1 | h2
            · subst h1
              have h0 := hall _ (List.mem_cons_self _ _)
              exact ⟨h0.1, h0.2⟩
            · exact ih ht (fun j2 hj2 => hall j2 (List.mem_cons_of_mem _ hj2)) _ h2
    · cases ht : resolveCalls index t with
      | error e2 => simp [ht, bind, Except.bind] at h
      | ok t2 =>
        simp [ht, bind, Except.bind] at h
        subst h
        intro j hj
        rcases List.mem_cons.mp hj with h1 | h2
        · subst h1
          exact hall _ (List.mem_cons_self _ _)
        · exact ih ht (fun j2 hj2 => hall j2 (List.mem_cons_of_mem _ hj2)) _ h2

/-- buildRules preserves instrOk across the accumulated program. -/
theorem buildRules_instrOk {fuel : Nat} :
    ∀ (gs : List (String × Defn)) (pis0 : List Instr) (index0 : List (String × Nat))
      (pis : List Instr) (index : List (String × Nat)),
      buildRules fuel gs pis0 index0 = .ok (pis, index) →
      (∀ i ∈ pis0, instrOk i) → ∀ i ∈ pis, instrOk i := by
  intro gs
  induction gs with
  | nil =>
    intro pis0 index0 pis index h hall
    cases h
    exact hall
  | cons g0 rest ih =>
    intro pis0 index0 pis index h hall
    unfold buildRules at h
    cases hb : parsingInstrs fuel g0.2 with
    | error e2 => simp [hb, bind, Except.bind] at h
    | ok body =>
      simp only [hb, bind, Except.bind] at h
      refine ih _ _ _ _ h ?_
      intro i hi
      rcases List.mem_append.mp hi with h1 | h2
      · rcases List.mem_append.mp h1 with h3 | h4
        · exact hall i h3
        · exact (parsingInstrs_blockOk fuel g0.2 body hb).2.1 i h4
      · simp at h2
        subst h2
        exact instrOk_mkInstr _

/-- Claim C3 (amended).  In every program emitted by _make_program, no
instruction whose opcode is COMMIT, UPDATE, RESTORE, FAILTWICE, or RETURN
carries marking, capturing, or an action, and no CALL carries capturing or
an action.  (A CALL can carry marking: see the counterexample.) -/
theorem pe_C3_no_cap_or_act (fuel : Nat) (g : List (String × Defn))
    (pis : List Instr) (index : List (String × Nat))
    (h : makeProgram fuel g = .ok (pis, index)) :
    ∀ i ∈ pis, instrOk i := by
  unfold makeProgram at h
  cases hb : buildRules fuel g [mkInstr .FAIL] [] with
  | error e2 => simp [hb, bind, Except.bind] at h
  | ok pr =>
    obtain ⟨pis0, index0⟩ := pr
    simp only [hb, bind, Except.bind] at h
    cases hr : resolveCalls index0 pis0 with
    | error e2 => simp [hr, bind, Except.bind] at h
    | ok pis2 =>
      simp [hr] at h
      obtain ⟨h1, h2⟩ := h
      subst h1
      subst h2
      intro i hi
      rcases List.mem_append.mp hi with hi1 | hi2
      · have hall0 : ∀ j ∈ pis0, instrOk j := by
          refine buildRules_instrOk g _ _ _ _ hb ?_
          intro j hj
          simp at hj
          subst hj
          exact instrOk_mkInstr _
        exact resolveCalls_instrOk hr hall0 i hi1
      · simp at hi2
        subst hi2
        exact instrOk_mkInstr _

/-- Compiled form of A <- CAP(SYM A): the CALL instruction carries
marking. -/
def progC3 : List Instr :=
  [mkInstr .FAIL,
   { opcode := .CALL, oploc := 1, marking := true, name := some "A" },
   { opcode := .NOOP, capturing := true },
   mkInstr .RETURN,
   mkInstr .PASS]

/-- Claim C3 counterexample.  The claim says marking is never present on a
CALL, but compiling A <- CAP(SYM A) yields a program whose instruction at
address 1 is a CALL with marking = true (_cap marks the first instruction
of the captured block without checking its opcode). -/
theorem pe_C3_counterexample :
    makeProgram 50 [("A", .CAP (.SYM "A"))] = .ok (progC3, [("A", 1)]) ∧
    (progC3[1]?).map (fun i => (i.opcode, i.marking)) = some (.CALL, true) :=
  ⟨by rfl, by rfl⟩

/-- Witness for C3: the amended invariant applied to the concrete program
compiled from A <- CAP(SYM A), at its marked CALL instruction. -/
theorem pe_C3_witness :
    instrOk { opcode := .CALL, oploc := 1, marking := true, name := some "A" } :=
  pe_C3_no_cap_or_act 50 [("A", .CAP (.SYM "A"))] progC3 [("A", 1)] (by rfl)
    { opcode := .CALL, oploc := 1, marking := true, name := some "A" }
    (List.mem_cons_of_mem _ (List.mem_cons_self _ _))

/-! ## Claim theorems: undefined rules and CALL resolution (C9) -/

/-- After the post-pass, every CALL instruction's oploc is the index entry
of its rule name. -/
theorem resolveCalls_oploc {index : List (String × Nat)} :
    ∀ {l l2 : List Instr}, resolveCalls index l = .ok l2 →
      ∀ i ∈ l2, i.opcode = .CALL →
        ∃ nm v, i.name = some nm ∧ dictGet index nm = some v ∧ i.oploc = (v : Int) := by
  intro l
  induction l with
  | nil =>
    intro l2 h
    cases h
    simp
  | cons i0 t ih =>
    intro l2 h
    unfold resolveCalls at h
    split at h
    · next hcall =>
      cases hn : i0.name with
      | none => simp [hn, bind, Except.bind] at h
      | some n =>
        cases hv : dictGet index n with
        | none => simp [hn, hv, bind, Except.bind] at h
        | some v =>
          simp only [hn, hv] at h
          cases ht : resolveCalls index t with
          | error e2 => simp [ht, bind, Except.bind] at h
          | ok t2 =>
            simp [ht, bind, Except.bind] at h
            subst h
            intro j hj hjc
            rcases List.mem_cons.mp hj with h1 | h2
            · subst h1
              exact ⟨n, v, rfl, hv, rfl⟩
            · exact ih ht _ h2 hjc
    · next hcall =>
      cases ht : resolveCalls index t with
      | error e2 => simp [ht, bind, Except.bind] at h
      | ok t2 =>
        simp [ht, bind, Except.bind] at h
        subst h
        intro j hj hjc
        rcases List.mem_cons.mp hj with h1 | h2
        · subst h1
          exact absurd hjc hcall
        · exact ih ht _ h2 hjc

/-- Claim C9.  Compiling a grammar with a reference to an undefined rule
fails synchronously with error "undefined rule: N" naming that rule and
returns no program (the validation lives in the compile() front end; the
machine module's own post-pass raises a bare KeyError, see
makeProgram_keyError); for a compiled grammar, the post-pass has replaced
every CALL's oploc with index[name]. -/
theorem pe_C9_undefined_rule (fuel : Nat) :
    (∀ (g : List (String × Defn)) (n : String),
       (grammarSyms fuel g).find? (fun m => !(grammarDefs g).contains m) = some n →
       compileGrammar fuel g = .error (.error ("undefined rule: " ++ n)) ∧
       n ∈ grammarSyms fuel g ∧ n ∉ grammarDefs g) ∧
    (∀ (g : List (String × Defn)) (pis : List Instr) (index : List (String × Nat)),
       compileGrammar fuel g = .ok (pis, index) →
       ∀ i ∈ pis, i.opcode = .CALL →
         ∃ nm v, i.name = some nm ∧ dictGet index nm = some v ∧ i.oploc = (v : Int)) := by
  constructor
  · intro g n hf
    refine ⟨?_, List.mem_of_find?_eq_some hf, ?_⟩
    · simp only [compileGrammar, validateGrammar, bind, Except.bind]
      rw [hf]
    · have hp := List.find?_some hf
      simpa using hp
  · intro g pis index h
    unfold compileGrammar at h
    cases hv : validateGrammar fuel g with
    | error e2 => simp [hv, bind, Except.bind] at h
    | ok u =>
      simp only [hv, bind, Except.bind] at h
      unfold makeProgram at h
      cases hb : buildRules fuel g [mkInstr .FAIL] [] with
      | error e2 => simp [hb, bind, Except.bind] at h
      | ok pr =>
        obtain ⟨pis0, index0⟩ := pr
        simp only [hb, bind, Except.bind] at h
        cases hr : resolveCalls index0 pis0 with
        | error e2 => simp [hr, bind, Except.bind] at h
        | ok pis2 =>
          simp [hr] at h
          obtain ⟨h1, h2⟩ := h
          subst h1
          subst h2
          intro i hi hic
          rcases List.mem_append.mp hi with hi1 | hi2
          · exact resolveCalls_oploc hr i hi1 hic
          · simp at hi2
            subst hi2
            simp [mkInstr] at hic

/-- The machine module's own post-pass (without the front end validation)
raises a bare KeyError naming the unknown rule, not the "undefined rule"
error. -/
theorem makeProgram_keyError :
    makeProgram 50 [("A", .SYM "B")] = .error (.keyError "B") ∧
    (PyErr.keyError "B" ≠ .error ("undefined rule: B")) :=
  ⟨by rfl, by decide⟩

/-- Compiled form of A <- SYM A. -/
def progC9good : List Instr :=
  [mkInstr .FAIL,
   { opcode := .CALL, oploc := 1, name := some "A" },
   mkInstr .RETURN,
   mkInstr .PASS]

/-- Witness for C9: the undefined-reference branch on A <- SYM B, and the
resolved-CALL branch on A <- SYM A at its CALL instruction. -/
theorem pe_C9_witness :
    (compileGrammar 50 [("A", .SYM "B")] =
       .error (.error ("undefined rule: " ++ "B")) ∧
     "B" ∈ grammarSyms 50 [("A", .SYM "B")] ∧
     "B" ∉ grammarDefs [("A", Defn.SYM "B")]) ∧
    (∃ nm v, ({ opcode := .CALL, oploc := 1, name := some "A" } : Instr).name = some nm ∧
       dictGet [("A", 1)] nm = some v ∧
       ({ opcode := .CALL, oploc := 1, name := some "A" } : Instr).oploc = (v : Int)) :=
  ⟨(pe_C9_undefined_rule 50).1 [("A", .SYM "B")] "B" (by rfl),
   (pe_C9_undefined_rule 50).2 [("A", .SYM "A")] progC9good [("A", 1)] (by rfl)
     { opcode := .CALL, oploc := 1, name := some "A" }
     (List.mem_cons_of_mem _ (List.mem_cons_self _ _)) rfl⟩

/-! ## Claim theorems: failure protocol of the VM (C5) -/

theorem pySetSlice_zero {α : Type} (l repl : List α) : pySetSlice l 0 repl = repl := by
  simp [pySetSlice, pySliceIdx]

theorem getLast?_dropWhile {stack : List Frame} {b f : Frame} {rest : List Frame}
    (hb : stack.getLast? = some b)
    (h : stack.dropWhile (fun fr => fr.pos < 0) = f :: rest) :
    (f :: rest).getLast? = some b := by
  obtain ⟨pre, hpre⟩ := List.dropWhile_suffix (l := stack) (fun fr => decide (fr.pos < 0))
  rw [← hpre, h] at hb
  rw [List.getLast?_append_cons] at hb
  exact hb

theorem dropWhile_head_nonneg :
    ∀ {stack : List Frame} {f : Frame} {rest : List Frame},
      stack.dropWhile (fun fr => fr.pos < 0) = f :: rest → 0 ≤ f.pos := by
  intro stack
  induction stack with
  | nil => intro f rest h; simp at h
  | cons a t ih =>
    intro f rest h
    rw [List.dropWhile_cons] at h
    split at h
    · exact ih h
    · next hcond =>
      cases h
      simp at hcond
      omega

theorem getLast?_drop_of {stack st2 : List Frame} {b : Frame} {n : Nat}
    (hb : stack.getLast? = some b) (h : st2 = stack.drop n) (hne : st2 ≠ []) :
    st2.getLast? = some b := by
  subst h
  conv at hb => rw [← List.take_append_drop n stack]
  rwa [List.getLast?_append_of_ne_nil _ hne] at hb

theorem unwindFail_halt {args : List Value} {kwargs : List (String × Value)}
    {stack : List Frame} {safe : Bool} {ek r a k sf}
    (h : unwindFail args kwargs stack safe = .halt (.done ek r a k sf)) :
    sf = safe ∧ ek = .failExit ∧ r = -1 ∧
      ∃ f, stack.dropWhile (fun fr => fr.pos < 0) = [f] ∧
        a = pySetSlice args f.argidx [] ∧
        k = (if kwargs.isEmpty then kwargs else pySetSlice kwargs f.kwidx []) := by
  unfold unwindFail at h
  cases hdw : stack.dropWhile (fun fr => fr.pos < 0) with
  | nil => rw [hdw] at h; simp at h
  | cons f rest =>
    rw [hdw] at h
    cases rest with
    | nil =>
      simp only [StepOut.halt.injEq, VMOut.done.injEq] at h
      obtain ⟨hek, hr, ha, hk, hsf⟩ := h
      exact ⟨hsf.symm, hek.symm, hr.symm, f, rfl, ha.symm, hk.symm⟩
    | cons g rest2 => simp at h

theorem unwindFail_cont {args : List Value} {kwargs : List (String × Value)}
    {stack : List Frame} {safe : Bool} {i2 p2 a2 k2 st2 sf2}
    (h : unwindFail args kwargs stack safe = .cont i2 p2 a2 k2 st2 sf2) :
    sf2 = safe ∧ ∃ f, stack.dropWhile (fun fr => fr.pos < 0) = f :: st2 ∧ st2 ≠ [] ∧
      i2 = f.opidx ∧ p2 = f.pos ∧
      a2 = pySetSlice args f.argidx [] ∧
      k2 = (if kwargs.isEmpty then kwargs else pySetSlice kwargs f.kwidx []) := by
  unfold unwindFail at h
  cases hdw : stack.dropWhile (fun fr => fr.pos < 0) with
  | nil => rw [hdw] at h; simp at h
  | cons f rest =>
    rw [hdw] at h
    cases rest with
    | nil => simp at h
    | cons g rest2 =>
      simp only [StepOut.cont.injEq] at h
      obtain ⟨hi, hp, ha, hk, hst, hsf⟩ := h
      subst hst
      exact ⟨hsf.symm, f, rfl, by simp, hi.symm, hp.symm, ha.symm, hk.symm⟩

theorem capStage_stack {s instr pos} {args : List Value} {kwargs : List (String × Value)}
    {stack : List Frame} {a2 k2 st2}
    (h : capStage s instr pos args kwargs stack = .ok (a2, k2, st2)) :
    ∃ n, st2 = stack.drop n := by
  cases stack with
  | nil =>
    unfold capStage at h
    split at h
    · simp at h
    · simp only [Except.ok.injEq, Prod.mk.injEq] at h
      exact ⟨0, by simp [h.2.2.symm]⟩
  | cons f rest =>
    unfold capStage at h
    split at h
    · simp only [Except.ok.injEq, Prod.mk.injEq] at h
      exact ⟨1, by simp [h.2.2.symm]⟩
    · simp only [Except.ok.injEq, Prod.mk.injEq] at h
      exact ⟨0, by simp [h.2.2.symm]⟩

theorem actStage_stack {s instr pos} {args : List Value} {kwargs : List (String × Value)}
    {stack : List Frame} {a2 k2 st2}
    (h : actStage s instr pos args kwargs stack = .ok (a2, k2, st2)) :
    ∃ n, st2 = stack.drop n := by
  cases hact : instr.action with
  | none =>
    simp only [actStage, hact, Except.ok.injEq, Prod.mk.injEq] at h
    exact ⟨0, by simp [h.2.2.symm]⟩
  | some act =>
    cases stack with
    | nil =>
      simp only [actStage, hact] at h
      exact Except.noConfusion h
    | cons f rest =>
      simp only [actStage, hact] at h
      cases hrun : act.run s f.mark pos (pyDropSlice args f.argidx)
          (pyDict (pyDropSlice kwargs f.kwidx)) with
      | error e =>
        simp only [hrun] at h
        exact Except.noConfusion h
      | ok res =>
        simp only [hrun, Except.ok.injEq, Prod.mk.injEq] at h
        exact ⟨1, by simp [h.2.2.symm]⟩

theorem successPost_not_done {s instr idx pos} {args : List Value}
    {kwargs : List (String × Value)} {stack : List Frame} {safe : Bool} {ek r a k sf} :
    successPost s instr idx pos args kwargs stack safe ≠ .halt (.done ek r a k sf) := by
  intro h
  unfold successPost at h
  cases hc : capStage s instr pos args kwargs stack with
  | error e => simp [hc] at h
  | ok t1 =>
    obtain ⟨aa, kk, ss⟩ := t1
    simp only [hc] at h
    cases ha : actStage s instr pos aa kk ss with
    | error e => simp [ha] at h
    | ok t2 =>
      obtain ⟨aa2, kk2, ss2⟩ := t2
      simp only [ha] at h
      simp at h

theorem successPost_cont {s instr idx pos} {args : List Value}
    {kwargs : List (String × Value)} {stack : List Frame} {safe : Bool}
    {i2 p2 a2 k2 st2 sf2}
    (h : successPost s instr idx pos args kwargs stack safe = .cont i2 p2 a2 k2 st2 sf2) :
    sf2 = safe ∧ p2 = pos ∧ ∃ n, st2 = stack.drop n := by
  unfold successPost at h
  cases hc : capStage s instr pos args kwargs stack with
  | error e => simp [hc] at h
  | ok t1 =>
    obtain ⟨aa, kk, ss⟩ := t1
    simp only [hc] at h
    cases ha : actStage s instr pos aa kk ss with
    | error e => simp [ha] at h
    | ok t2 =>
      obtain ⟨aa2, kk2, ss2⟩ := t2
      simp only [ha] at h
      simp only [StepOut.cont.injEq] at h
      obtain ⟨hi, hp, haa, hkk, hst, hsf⟩ := h
      obtain ⟨n1, hn1⟩ := capStage_stack hc
      obtain ⟨n2, hn2⟩ := actStage_stack ha
      refine ⟨hsf.symm, hp.symm, n2 + n1, ?_⟩
      rw [← hst, hn2, hn1, List.drop_drop, Nat.add_comm]

theorem unwindFail_halt_base {args : List Value} {kwargs : List (String × Value)}
    {st : List Frame} {safe : Bool} {ek r a k sf}
    (hb : st.getLast? = some FAILBASE)
    (h : unwindFail args kwargs st safe = .halt (.done ek r a k sf)) :
    sf = safe ∧ ek = .failExit ∧ r = -1 ∧ a = [] ∧ k = [] := by
  obtain ⟨hsf, hek, hr, f, hdw, ha, hk⟩ := unwindFail_halt h
  have hf : f = FAILBASE := by
    have h2 := getLast?_dropWhile hb hdw
    simpa using h2
  subst hf
  refine ⟨hsf, hek, hr, ?_, ?_⟩
  · rw [ha]
    simp [FAILBASE, pySetSlice, pySliceIdx]
  · rw [hk]
    cases kwargs with
    | nil => simp
    | cons p t => simp [FAILBASE, pySetSlice, pySliceIdx]

theorem unwindFail_cont_base {args : List Value} {kwargs : List (String × Value)}
    {st : List Frame} {safe : Bool} {i2 p2 a2 k2 st2 sf2}
    (hb : st.getLast? = some FAILBASE)
    (h : unwindFail args kwargs st safe = .cont i2 p2 a2 k2 st2 sf2) :
    sf2 = safe ∧ 0 ≤ p2 ∧ st2.getLast? = some FAILBASE := by
  obtain ⟨hsf, f, hdw, hne, hi, hp, -, -⟩ := unwindFail_cont h
  have hpos := dropWhile_head_nonneg hdw
  have hgl := getLast?_dropWhile hb hdw
  refine ⟨hsf, by omega, ?_⟩
  cases st2 with
  | nil => exact absurd rfl hne
  | cons g r2 => rwa [List.getLast?_cons_cons] at hgl

theorem successPost_cont_base {s : List Char} {instr : Instr} {idx pos : Int}
    {args : List Value} {kwargs : List (String × Value)} {stack : List Frame}
    {safe : Bool} {i2 p2 a2 k2 st2 sf2}
    (hb : stack.getLast? = some FAILBASE)
    (h : successPost s instr idx pos args kwargs stack safe = .cont i2 p2 a2 k2 st2 sf2) :
    sf2 = safe ∧ p2 = pos ∧ (st2 = [] ∨ st2.getLast? = some FAILBASE) := by
  obtain ⟨hsf, hp, n, hn⟩ := successPost_cont h
  refine ⟨hsf, hp, ?_⟩
  by_cases hne : st2 = []
  · exact Or.inl hne
  · exact Or.inr (getLast?_drop_of hb hn hne)

theorem vmDispatch_halt {instr : Instr} {s : List Char} {idx pos : Int}
    {args : List Value} {kwargs : List (String × Value)} {stack : List Frame}
    {safe : Bool} {ek r a k sf}
    (h : vmDispatch instr s idx pos args kwargs stack safe = .halt (.done ek r a k sf)) :
    sf = safe ∧
    (stack.getLast? = some FAILBASE → 0 ≤ pos →
      ek ≠ .other ∧ (ek = .pass → 0 ≤ r) ∧ (ek = .failExit → r = -1 ∧ a = [] ∧ k = [])) := by
  cases stack with
  | nil => simp [vmDispatch] at h
  | cons top rest =>
    cases hop : instr.opcode <;> simp only [vmDispatch, hop] at h
    case SCAN =>
      cases hsc : instr.scanner with
      | none => simp [hsc] at h
      | some sc =>
        simp only [hsc] at h
        cases hscan : scanUnder sc s pos (s.length : Int) with
        | error e => simp [hscan] at h
        | ok p2 =>
          simp only [hscan] at h
          split at h
          · obtain ⟨hsf, hek, hr, f, hdw, ha, hk⟩ := unwindFail_halt h
            refine ⟨hsf, ?_⟩
            intro hb hpos
            obtain ⟨hsf2, hek2, hr2, ha2, hk2⟩ := unwindFail_halt_base hb h
            refine ⟨?_, ?_, ?_⟩
            · rw [hek2]; simp
            · intro hp; rw [hek2] at hp; cases hp
            · intro hfe; exact ⟨hr2, ha2, hk2⟩
          · exact absurd h successPost_not_done
    case BRANCH => exact StepOut.noConfusion h
    case CALL => exact StepOut.noConfusion h
    case COMMIT => exact StepOut.noConfusion h
    case UPDATE => exact StepOut.noConfusion h
    case RESTORE => exact StepOut.noConfusion h
    case RETURN => exact StepOut.noConfusion h
    case JUMP => simp at h
    case PASS =>
      simp only [StepOut.halt.injEq, VMOut.done.injEq] at h
      obtain ⟨hek, hr, ha, hk, hsf⟩ := h
      subst hek hr ha hk hsf
      refine ⟨rfl, fun hb hpos => ⟨by simp, fun _ => hpos, by intro hfe; cases hfe⟩⟩
    case FAILTWICE =>
      obtain ⟨hsf, hek, hr, f, hdw, ha, hk⟩ := unwindFail_halt h
      refine ⟨hsf, ?_⟩
      intro hb hpos
      cases rest with
      | nil => simp [unwindFail] at h
      | cons g r2 =>
        have hb2 : (g :: r2).getLast? = some FAILBASE := by
          rwa [List.getLast?_cons_cons] at hb
        obtain ⟨hsf2, hek2, hr2, ha2, hk2⟩ := unwindFail_halt_base hb2 h
        refine ⟨?_, ?_, ?_⟩
        · rw [hek2]; simp
        · intro hp; rw [hek2] at hp; cases hp
        · intro hfe; exact ⟨hr2, ha2, hk2⟩
    case FAIL =>
      obtain ⟨hsf, hek, hr, f, hdw, ha, hk⟩ := unwindFail_halt h
      refine ⟨hsf, ?_⟩
      intro hb hpos
      obtain ⟨hsf2, hek2, hr2, ha2, hk2⟩ := unwindFail_halt_base hb h
      refine ⟨?_, ?_, ?_⟩
      · rw [hek2]; simp
      · intro hp; rw [hek2] at hp; cases hp
      · intro hfe; exact ⟨hr2, ha2, hk2⟩
    case NOOP => exact absurd h successPost_not_done

theorem vmDispatch_cont {instr : Instr} {s : List Char} {idx pos : Int}
    {args : List Value} {kwargs : List (String × Value)} {stack : List Frame}
    {safe : Bool} {i2 p2 a2 k2 st2 sf2}
    (h : vmDispatch instr s idx pos args kwargs stack safe = .cont i2 p2 a2 k2 st2 sf2) :
    (sf2 = true → safe = true) ∧
    (stack.getLast? = some FAILBASE → 0 ≤ pos → sf2 = true →
      0 ≤ p2 ∧ (st2 = [] ∨ st2.getLast? = some FAILBASE)) := by
  cases stack with
  | nil => simp [vmDispatch] at h
  | cons top rest =>
    have hgltail : (top :: rest).getLast? = some FAILBASE →
        rest = [] ∨ rest.getLast? = some FAILBASE := by
      intro hb
      cases rest with
      | nil => exact Or.inl rfl
      | cons g r2 => exact Or.inr (by rwa [List.getLast?_cons_cons] at hb)
    cases hop : instr.opcode <;> simp only [vmDispatch, hop] at h
    case SCAN =>
      cases hsc : instr.scanner with
      | none => simp [hsc] at h
      | some sc =>
        simp only [hsc] at h
        cases hscan : scanUnder sc s pos (s.length : Int) with
        | error e => simp [hscan] at h
        | ok p2v =>
          simp only [hscan] at h
          split at h
          · obtain ⟨hsf, f, hdw, hne, hi, hp, -, -⟩ := unwindFail_cont h
            refine ⟨by rw [hsf]; exact fun x => x, ?_⟩
            intro hb hpos hs
            obtain ⟨-, hpge, hlast⟩ := unwindFail_cont_base hb h
            exact ⟨hpge, Or.inr hlast⟩
          · next hge =>
            obtain ⟨hsf, hp, n, hn⟩ := successPost_cont h
            refine ⟨by rw [hsf]; exact fun x => x, ?_⟩
            intro hb hpos hs
            obtain ⟨-, hp2, hor⟩ := successPost_cont_base hb h
            exact ⟨by omega, hor⟩
    case BRANCH =>
      simp only [StepOut.cont.injEq] at h
      obtain ⟨hi, hp, ha, hk, hst, hsf⟩ := h
      subst hi hp ha hk hst hsf
      refine ⟨fun x => x, ?_⟩
      intro hb hpos hs
      refine ⟨hpos, Or.inr ?_⟩
      rw [List.getLast?_cons_cons]
      exact hb
    case CALL =>
      simp only [StepOut.cont.injEq] at h
      obtain ⟨hi, hp, ha, hk, hst, hsf⟩ := h
      subst hi hp ha hk hst hsf
      refine ⟨fun x => x, ?_⟩
      intro hb hpos hs
      refine ⟨hpos, Or.inr ?_⟩
      rw [List.getLast?_cons_cons]
      exact hb
    case COMMIT =>
      simp only [StepOut.cont.injEq] at h
      obtain ⟨hi, hp, ha, hk, hst, hsf⟩ := h
      subst hi hp ha hk hst hsf
      exact ⟨fun x => x, fun hb hpos hs => ⟨hpos, hgltail hb⟩⟩
    case UPDATE =>
      simp only [StepOut.cont.injEq] at h
      obtain ⟨hi, hp, ha, hk, hst, hsf⟩ := h
      subst hi hp ha hk hst hsf
      constructor
      · intro hs
        exact (Bool.and_eq_true _ _ |>.mp hs).1
      · intro hb hpos hs
        have hrest : rest ≠ [] := by
          have h2 := (Bool.and_eq_true _ _ |>.mp hs).2
          simpa using h2
        refine ⟨hpos, Or.inr ?_⟩
        cases rest with
        | nil => exact absurd rfl hrest
        | cons g r2 =>
          rw [List.getLast?_cons_cons]
          rwa [List.getLast?_cons_cons] at hb
    case RESTORE =>
      simp only [StepOut.cont.injEq] at h
      obtain ⟨hi, hp, ha, hk, hst, hsf⟩ := h
      subst hi hp ha hk hst hsf
      constructor
      · intro hs
        exact (Bool.and_eq_true _ _ |>.mp hs).1
      · intro hb hpos hs
        have hge : 0 ≤ top.pos := by
          have h2 := (Bool.and_eq_true _ _ |>.mp hs).2
          simpa using h2
        exact ⟨hge, hgltail hb⟩
    case FAILTWICE =>
      obtain ⟨hsf, f, hdw, hne, hi, hp, -, -⟩ := unwindFail_cont h
      refine ⟨by rw [hsf]; exact fun x => x, ?_⟩
      intro hb hpos hs
      cases rest with
      | nil => simp [unwindFail] at h
      | cons g r2 =>
        have hb2 : (g :: r2).getLast? = some FAILBASE := by
          rwa [List.getLast?_cons_cons] at hb
        obtain ⟨-, hpge, hlast⟩ := unwindFail_cont_base hb2 h
        exact ⟨hpge, Or.inr hlast⟩
    case RETURN =>
      simp only [StepOut.cont.injEq] at h
      obtain ⟨hi, hp, ha, hk, hst, hsf⟩ := h
      subst hi hp ha hk hst hsf
      exact ⟨fun x => x, fun hb hpos hs => ⟨hpos, hgltail hb⟩⟩
    case PASS => exact StepOut.noConfusion h
    case FAIL =>
      obtain ⟨hsf, f, hdw, hne, hi, hp, -, -⟩ := unwindFail_cont h
      refine ⟨by rw [hsf]; exact fun x => x, ?_⟩
      intro hb hpos hs
      obtain ⟨-, hpge, hlast⟩ := unwindFail_cont_base hb h
      exact ⟨hpge, Or.inr hlast⟩
    case NOOP =>
      obtain ⟨hsf, hp, n, hn⟩ := successPost_cont h
      refine ⟨by rw [hsf]; exact fun x => x, ?_⟩
      intro hb hpos hs
      obtain ⟨-, hp2, hor⟩ := successPost_cont_base hb h
      exact ⟨by omega, hor⟩
    case JUMP => simp at h

theorem vmStep_halt {pi : List Instr} {s : List Char} {idx pos : Int}
    {args : List Value} {kwargs : List (String × Value)} {stack : List Frame}
    {safe : Bool} {ek r a k sf}
    (h : vmStep pi s idx pos args kwargs stack safe = .halt (.done ek r a k sf)) :
    sf = safe ∧
    (stack.getLast? = some FAILBASE → 0 ≤ pos →
      ek ≠ .other ∧ (ek = .pass → 0 ≤ r) ∧ (ek = .failExit → r = -1 ∧ a = [] ∧ k = [])) := by
  unfold vmStep at h
  cases hg : pyGetInstr pi idx with
  | error e => simp [hg] at h
  | ok instr =>
    simp only [hg] at h
    have hd := vmDispatch_halt h
    refine ⟨hd.1, ?_⟩
    intro hb hpos
    refine hd.2 ?_ hpos
    split
    · cases stack with
      | nil => simp at hb
      | cons t0 st2 =>
        rw [List.getLast?_cons_cons]
        exact hb
    · exact hb

theorem vmStep_cont {pi : List Instr} {s : List Char} {idx pos : Int}
    {args : List Value} {kwargs : List (String × Value)} {stack : List Frame}
    {safe : Bool} {i2 p2 a2 k2 st2 sf2}
    (h : vmStep pi s idx pos args kwargs stack safe = .cont i2 p2 a2 k2 st2 sf2) :
    (sf2 = true → safe = true) ∧
    (stack.getLast? = some FAILBASE → 0 ≤ pos → sf2 = true →
      0 ≤ p2 ∧ (st2 = [] ∨ st2.getLast? = some FAILBASE)) := by
  unfold vmStep at h
  cases hg : pyGetInstr pi idx with
  | error e => simp [hg] at h
  | ok instr =>
    simp only [hg] at h
    have hd := vmDispatch_cont h
    refine ⟨hd.1, ?_⟩
    intro hb hpos hs
    refine hd.2 ?_ hpos hs
    split
    · cases stack with
      | nil => simp at hb
      | cons t0 st2 =>
        rw [List.getLast?_cons_cons]
        exact hb
    · exact hb

theorem vmRun_safe_mono {pi : List Instr} {s : List Char} :
    ∀ (fuel : Nat) {idx pos : Int} {args : List Value} {kwargs : List (String × Value)}
      {stack : List Frame} {safe : Bool} {ek r a k},
      vmRun pi s fuel idx pos args kwargs stack safe = .done ek r a k true →
      safe = true := by
  intro fuel
  induction fuel with
  | zero =>
    intro idx pos args kwargs stack safe ek r a k h
    simp [vmRun] at h
  | succ n ih =>
    intro idx pos args kwargs stack safe ek r a k h
    unfold vmRun at h
    split at h
    · simp only [VMOut.done.injEq] at h
      exact h.2.2.2.2
    · cases hs : vmStep pi s idx pos args kwargs stack safe with
      | halt o =>
        rw [hs] at h
        simp only [] at h
        subst h
        exact (vmStep_halt hs).1.symm
      | cont i2 p2 a2 k2 st2 sf2 =>
        rw [hs] at h
        simp only [] at h
        have hsf2 := ih h
        subst hsf2
        exact (vmStep_cont hs).1 rfl

theorem vmRun_inv {pi : List Instr} {s : List Char} :
    ∀ (fuel : Nat) {idx pos : Int} {args : List Value} {kwargs : List (String × Value)}
      {stack : List Frame} {safe : Bool} {ek r a k},
      0 ≤ pos → (stack = [] ∨ stack.getLast? = some FAILBASE) →
      vmRun pi s fuel idx pos args kwargs stack safe = .done ek r a k true →
      (ek = .pass → 0 ≤ r) ∧ (ek = .failExit → r = -1 ∧ a = [] ∧ k = []) ∧
      (ek = .other → r = -1) := by
  intro fuel
  induction fuel with
  | zero =>
    intro idx pos args kwargs stack safe ek r a k hpos hstk h
    simp [vmRun] at h
  | succ n ih =>
    intro idx pos args kwargs stack safe ek r a k hpos hstk h
    unfold vmRun at h
    split at h
    · simp only [VMOut.done.injEq] at h
      obtain ⟨hek, hr, -, -, -⟩ := h
      subst hek
      subst hr
      refine ⟨?_, ?_, ?_⟩
      · intro hp; cases hp
      · intro hp; cases hp
      · intro hp2; rfl
    · next hne =>
      have hbase : stack.getLast? = some FAILBASE := by
        rcases hstk with h1 | h2
        · exact absurd (by simp [h1] : stack.isEmpty = true) hne
        · exact h2
      cases hs : vmStep pi s idx pos args kwargs stack safe with
      | halt o =>
        rw [hs] at h
        simp only [] at h
        subst h
        have hd := (vmStep_halt hs).2 hbase hpos
        exact ⟨hd.2.1, hd.2.2, fun ho => absurd ho hd.1⟩
      | cont i2 p2 a2 k2 st2 sf2 =>
        rw [hs] at h
        simp only [] at h
        have hsf2 : sf2 = true := vmRun_safe_mono n h
        have hd := (vmStep_cont hs).2 hbase hpos hsf2
        exact ih hd.1 hd.2 h

/-- Claim C5 (amended).  For a run of the machine from the canonical entry
state whose safety flag survives (no UPDATE on the bottom fallback entry
and no RESTORE of an entry without a saved position; true of compiled
programs): the returned end position is negative exactly when the run did
not end at PASS; a failure-fallback exit reports -1 with both caller-visible
accumulators truncated to empty; and the MachineParser.match wrapper
returns None exactly when the end position is negative. -/
theorem pe_C5_failure_protocol :
    ∀ (pi : List Instr) (index : List (String × Nat)) (start : String) (fuel : Nat)
      (s : List Char) (pos0 : Int) (n : Int) (ek : ExitKind) (r : Int)
      (a : List Value) (k : List (String × Value)),
      0 ≤ pos0 →
      (index.find? (fun p => p.1 = start)).map (fun p => (p.2 : Int)) = some n →
      parserMatch pi fuel n s pos0 = .done ek r a k true →
      (r < 0 ↔ ek ≠ .pass) ∧
      (ek = .failExit → r = -1 ∧ a = [] ∧ k = []) ∧
      (machineMatch pi index start fuel s pos0 = .ok none ↔ r < 0) := by
  intro pi index start fuel s pos0 n ek r a k hpos hidx hrun
  have hstk : ([SUCCBASE, FAILBASE] : List Frame).getLast? = some FAILBASE := by rfl
  have hinv := vmRun_inv fuel hpos (Or.inr hstk) hrun
  refine ⟨?_, hinv.2.1, ?_⟩
  · constructor
    · intro hr hp
      subst hp
      have := hinv.1 rfl
      omega
    · intro hp
      cases ek with
      | pass => exact absurd rfl hp
      | failExit =>
        have := (hinv.2.1 rfl).1
        omega
      | other =>
        have := hinv.2.2 rfl
        omega
  · unfold machineMatch
    rw [hidx]
    simp only [hrun]
    by_cases hr : r < 0
    · simp [hr]
    · simp [hr]

/-- A hand-crafted program that captures a value, COMMITs away the success
fallback, and then UPDATEs the bottom failure-fallback entry before
failing. -/
def progC5bad : List Instr :=
  [mkInstr .FAIL,
   { opcode := .NOOP, marking := true, capturing := true },
   { opcode := .COMMIT, oploc := 1 },
   { opcode := .UPDATE, oploc := 1 },
   mkInstr .FAIL,
   mkInstr .PASS]

/-- Claim C5 counterexample.  The claim quantifies over every program, but
for progC5bad on input "x" the machine reports failure (end position -1)
while the caller-visible args list still holds a speculative emitted value:
the UPDATE stored the current accumulator length into the bottom fallback
entry, so the final truncation no longer clears it. -/
theorem pe_C5_counterexample :
    parserMatch progC5bad 100 1 "x".toList 0 =
      .done .failExit (-1) [Value.str []] [] false ∧
    ((-1 : Int) < 0) ∧ ([Value.str []] : List Value) ≠ [] :=
  ⟨by decide, by decide, by decide⟩

/-- Compiled form of Start <- "a". -/
def progC5w : List Instr :=
  [mkInstr .FAIL,
   { opcode := .SCAN, scanner := some (.literal ['a']) },
   mkInstr .RETURN,
   mkInstr .PASS]

/-- Witness for C5: the failure protocol applied to the compiled program
for Start <- "a" failing on input "b". -/
theorem pe_C5_witness :
    (((-1 : Int) < 0) ↔ ExitKind.failExit ≠ ExitKind.pass) ∧
    (ExitKind.failExit = ExitKind.failExit →
      (-1 : Int) = -1 ∧ ([] : List Value) = [] ∧ ([] : List (String × Value)) = []) ∧
    (machineMatch progC5w [("Start", 1)] "Start" 100 "b".toList 0 = .ok none ↔
      (-1 : Int) < 0) :=
  pe_C5_failure_protocol progC5w [("Start", 1)] "Start" 100 "b".toList 0 1
    .failExit (-1) [] [] (by decide) (by decide) (by decide)

end PE
